import Mathlib

/-!
Verification of the markdown segmentation engine of `app/services/utils/process_md.py`
(`split_markdown_for_video_with_image_split`, `split_long_text`, `ScriptSegment`,
`get_script_segments`).

Python strings are modelled as `List Char`.  Whitespace is modelled by the six
ASCII whitespace characters recognised by Python's `str.strip`, `str.split` and
the regex class `\s` (space, tab, newline, carriage return, vertical tab, form
feed); digits are the ASCII digits matched by `\d` on the inputs of interest.
-/

/-- The whitespace test used by `str.strip()`, `str.split()` and the regex `\s`. -/
def isWS (c : Char) : Bool :=
  c = ' ' || c = '\t' || c = '\n' || c = '\r' || c = '\x0b' || c = '\x0c'

/-- Removes trailing characters satisfying `isWS` (the right half of `str.strip()`). -/
def dropTrail : List Char → List Char
  | [] => []
  | c :: t =>
    match dropTrail t with
    | [] => if isWS c then [] else [c]
    | d :: r => c :: d :: r

/-- Python `s.strip()`: remove leading and trailing whitespace. -/
def strip (s : List Char) : List Char :=
  dropTrail (s.dropWhile isWS)

/-- Python `s.split('\n')`: split at every newline, keeping empty pieces. -/
def splitLines : List Char → List (List Char)
  | [] => [[]]
  | c :: t =>
    if c = '\n' then [] :: splitLines t
    else
      match splitLines t with
      | l :: ls => (c :: l) :: ls
      | [] => [[c]]

/-- Word-count state machine: `wcA b s` counts the words of `s`
(maximal runs of non-whitespace characters), `b` records whether we are
currently inside a word.  `len(s.split())` is `wcA false s`. -/
def wcA : Bool → List Char → Nat
  | _, [] => 0
  | b, c :: t => if isWS c then wcA false t else (if b then 0 else 1) + wcA true t

/-- Python `len(s.split())`: the number of whitespace-separated words of `s`. -/
def wc (s : List Char) : Nat := wcA false s

/-- The scanning state after processing `s` starting in state `b`
(whether the scan ends inside a word). -/
def inW : Bool → List Char → Bool
  | b, [] => b
  | _, c :: t => inW (!isWS c) t

/-- The characters of a string with all whitespace removed. -/
def dws (s : List Char) : List Char := s.filter (fun c => !isWS c)

/-- Conversion from a string literal to the character-list model. -/
def strOf (s : String) : List Char := s.data

/-- Sentence-terminal punctuation, the character class `[.!?]`. -/
def isPunct3 (c : Char) : Bool := c = '.' || c = '!' || c = '?'

/-- `re.match(r'^\d+\.', s)`: one or more digits followed by a dot, at the start. -/
def digitsThenDot (s : List Char) : Bool :=
  !(s.takeWhile Char.isDigit).isEmpty &&
    match s.dropWhile Char.isDigit with
    | c :: _ => c = '.'
    | [] => false

/-- The bullet/numbered-item test of the source:
`stripped.startswith('-') or stripped.startswith('*') or re.match(r'^\d+\.', stripped)`. -/
def isBulletLine (s : List Char) : Bool :=
  match s with
  | c :: _ => c = '-' || c = '*' || digitsThenDot s
  | [] => false

/-- `stripped.startswith('#')`. -/
def headIsHash (s : List Char) : Bool :=
  match s with
  | c :: _ => c = '#'
  | [] => false

/-- Does the image pattern `!\[\]\(\$\d+\$\)` match at the start of `s`?
If so, return the digit group and the remainder of `s` after the match.
(The greedy `\d+` must be followed by `$)`, and since `$` is not a digit the
maximal digit run is the only candidate.) -/
def markerHead (s : List Char) : Option (List Char × List Char) :=
  if s.take 5 = ['!', '[', ']', '(', '$'] then
    if ((s.drop 5).takeWhile Char.isDigit).isEmpty then none
    else
      match (s.drop 5).dropWhile Char.isDigit with
      | d1 :: d2 :: r =>
        if d1 = '$' && d2 = ')' then some ((s.drop 5).takeWhile Char.isDigit, r)
        else none
      | _ => none
  else none

/-- The characters of a marker with digit group `d`: `![]($` ++ d ++ `$)`. -/
def mkMarker (d : List Char) : List Char :=
  '!' :: '[' :: ']' :: '(' :: '$' :: (d ++ ['$', ')'])

/-- `int(ds)` for a string of ASCII digits. -/
def digitsToNat (ds : List Char) : Nat :=
  ds.foldl (fun n c => n * 10 + (c.toNat - '0'.toNat)) 0

/-- End position (exclusive) of the first match of the image pattern in `s`,
as found by `re.search`; `none` if there is no match. -/
def findMarkerEnd : List Char → Option Nat
  | [] => none
  | c :: t =>
    match markerHead (c :: t) with
    | some (_, r) => some ((c :: t).length - r.length)
    | none => (findMarkerEnd t).map (fun n => n + 1)

/-- `int(match.group(1))` of the first match of `!\[\]\(\$(\d+)\$\)` in `s`. -/
def findMarkerVal : List Char → Option Nat
  | [] => none
  | c :: t =>
    match markerHead (c :: t) with
    | some (ds, _) => some (digitsToNat ds)
    | none => findMarkerVal t

/-- Fuelled worker for `removeMarkers` (the recursion consumes whole matches,
so it is bounded by the length of the input). -/
def rmF : Nat → List Char → List Char
  | 0, _ => []
  | _ + 1, [] => []
  | f + 1, c :: t =>
    match markerHead (c :: t) with
    | some (_, r) => rmF f r
    | none => c :: rmF f t

/-- `re.sub(r'!\[\]\(\$(\d+)\$\)', '', s)`: delete every leftmost
non-overlapping match of the image pattern, in a single left-to-right pass. -/
def removeMarkers (s : List Char) : List Char := rmF s.length s

/-- Fuelled worker for `countMarkers`. -/
def cmF : Nat → List Char → Nat
  | 0, _ => 0
  | _ + 1, [] => 0
  | f + 1, c :: t =>
    match markerHead (c :: t) with
    | some (_, r) => 1 + cmF f r
    | none => cmF f t

/-- The number of (leftmost, non-overlapping) matches of the image pattern in `s`,
i.e. `len(re.findall(pattern, s))`. -/
def countMarkers (s : List Char) : Nat := cmF s.length s

/-- Fuelled worker for `collapseWS`: `pw` records whether the previous character
was part of a whitespace run that has already emitted its single `' '`. -/
def collAux : Bool → List Char → List Char
  | _, [] => []
  | pw, c :: t =>
    if isWS c then
      if pw then collAux true t else ' ' :: collAux true t
    else c :: collAux false t

/-- `re.sub(r'\s+', ' ', s)`: replace every maximal whitespace run by one space. -/
def collapseWS (s : List Char) : List Char := collAux false s

/-- Is the first character of `s` whitespace (`\s` matches right here)? -/
def headWS : List Char → Bool
  | b :: _ => isWS b
  | [] => false

/-- Fuelled worker for `reSplitSent`: scan for matches of `([.!?])\s+`;
`acc` is the reversed current text part.  On a match, emit the text part and
the captured punctuation character, skip the whitespace run, and continue. -/
def rssF : Nat → List Char → List Char → List (List Char)
  | 0, acc, _ => [acc.reverse]
  | _ + 1, acc, [] => [acc.reverse]
  | f + 1, acc, c :: t =>
    if isPunct3 c && headWS t then
      acc.reverse :: [c] :: rssF f [] (t.dropWhile isWS)
    else rssF f (c :: acc) t

/-- `re.split(r'([.!?])\s+', text)`: the alternating list
text part, captured punctuation, text part, … -/
def reSplitSent (s : List Char) : List (List Char) := rssF s.length [] s

/-- Python substring test `b in '.!?'` (true for every contiguous substring,
including the empty string). -/
def isSubstrPunct (b : List Char) : Bool :=
  b = [] || b = ['.'] || b = ['!'] || b = ['?'] ||
    b = ['.', '!'] || b = ['!', '?'] || b = ['.', '!', '?']

/-- The sentence-recombination loop of `split_long_text`: walk the parts list,
gluing each text part to the following captured punctuation, and keeping a
lone part only when it has non-blank content. -/
def recombine : List (List Char) → List (List Char)
  | [] => []
  | [a] => if (strip a).isEmpty then [] else [a]
  | a :: b :: rest =>
    if isSubstrPunct b then (a ++ b) :: recombine rest
    else if (strip a).isEmpty then recombine (b :: rest)
    else a :: recombine (b :: rest)

/-- The greedy sentence-packing loop of `split_long_text`: `cur` is
`current_segment`, `cwc` is `current_word_count`. -/
def sltGo (mw : Nat) : List (List Char) → List Char → Nat → List (List Char)
  | [], cur, _ => if (strip cur).isEmpty then [] else [strip cur]
  | s :: rest, cur, cwc =>
    let s' := strip s
    if s'.isEmpty then sltGo mw rest cur cwc
    else
      let sw := wc s'
      if mw < sw then
        (if cur.isEmpty then [] else [strip cur]) ++ s' :: sltGo mw rest [] 0
      else if mw < cwc + sw then
        (if cur.isEmpty then [] else [strip cur]) ++ sltGo mw rest s' sw
      else
        sltGo mw rest (if cur.isEmpty then s' else cur ++ ' ' :: s') (cwc + sw)

/-- `split_long_text(text, max_words)`: split prose into sentences on
`([.!?])\s+` and greedily repack them under the word budget. -/
def split_long_text (text : List Char) (mw : Nat) : List (List Char) :=
  sltGo mw (recombine (reSplitSent text)) [] 0

/-- The line-grouping loop of `split_markdown_for_video_with_image_split`:
`cur` is `current_block` (a list of lines, joined with `'\n'` when flushed). -/
def gbGo : List (List Char) → List (List Char) → List (List Char)
  | [], cur => if cur.isEmpty then [] else [List.intercalate ['\n'] cur]
  | l :: rest, cur =>
    let st := strip l
    if st.isEmpty then
      (if cur.isEmpty then [] else [List.intercalate ['\n'] cur]) ++ gbGo rest []
    else if headIsHash st then
      (if cur.isEmpty then [] else [List.intercalate ['\n'] cur]) ++
        st :: gbGo rest []
    else if isBulletLine st then
      if !cur.isEmpty && !isBulletLine (strip (cur.getLastD [])) then
        List.intercalate ['\n'] cur :: gbGo rest [l]
      else gbGo rest (cur ++ [l])
    else gbGo rest (cur ++ [l])

/-- The greedy bullet-line packing loop (for over-budget blocks containing a
bullet line): `cur` is `current_segment`, `cwc` is `current_words`. -/
def bpGo (mw : Nat) : List (List Char) → List Char → Nat → List (List Char)
  | [], cur, _ => if (strip cur).isEmpty then [] else [strip cur]
  | l :: rest, cur, cwc =>
    let lw := wc l
    if mw < lw then
      (if cur.isEmpty then [] else [strip cur]) ++
        split_long_text l mw ++ bpGo mw rest [] 0
    else if mw < cwc + lw then
      (if cur.isEmpty then [] else [strip cur]) ++ bpGo mw rest l lw
    else
      bpGo mw rest (if cur.isEmpty then l else cur ++ '\n' :: l) (cwc + lw)

/-- The per-block budgeting step of the segment packer. -/
def processBlock (mw : Nat) (block0 : List Char) : List (List Char) :=
  let block := strip block0
  if block.isEmpty then []
  else if wc block ≤ mw then [block]
  else
    let ls := splitLines block
    if ls.any (fun l => isBulletLine (strip l)) then bpGo mw ls [] 0
    else split_long_text block mw

/-- The image-marker relocation step applied to one packed segment:
split at the end of the first marker match, trim both halves, and keep the
non-empty ones; a segment with no match passes through unchanged. -/
def relocateSegment (s : List Char) : List (List Char) :=
  match findMarkerEnd s with
  | some e =>
    let before := strip (s.take e)
    let after := strip (s.drop e)
    (if before.isEmpty then [] else [before]) ++
      (if after.isEmpty then [] else [after])
  | none => [s]

/-- `split_markdown_for_video_with_image_split(text, max_words)`. -/
def split_markdown_for_video_with_image_split
    (text : List Char) (mw : Nat) : List (List Char) :=
  let ls := splitLines (strip text)
  let blocks := gbGo ls []
  let segs := blocks.foldr (fun b acc => processBlock mw b ++ acc) []
  segs.foldr (fun s acc => relocateSegment s ++ acc) []

/-- The classified output record (`@dataclass ScriptSegment`). -/
structure ScriptSegment where
  text : List Char
  image_index : Option Nat
  has_image : Bool
  raw_text : List Char
deriving DecidableEq

/-- The per-segment classification step of `get_script_segments`. -/
def classify (raw : List Char) : ScriptSegment :=
  match findMarkerVal raw with
  | some n =>
    { text := strip (collapseWS (strip (removeMarkers raw)))
      image_index := some n
      has_image := true
      raw_text := raw }
  | none =>
    { text := strip (collapseWS (strip raw))
      image_index := none
      has_image := false
      raw_text := raw }

/-- `get_script_segments(markdown_text, max_words)`: classify every relocated
segment and keep those with non-empty narration text. -/
def get_script_segments (text : List Char) (mw : Nat) : List ScriptSegment :=
  ((split_markdown_for_video_with_image_split text mw).map classify).filter
    (fun seg => !seg.text.isEmpty)

/-- The spec's whitespace normalisation: collapse whitespace runs and trim. -/
def normWS (s : List Char) : List Char := strip (collapseWS s)

/-- The "no sentence break" relation between adjacent characters: a character
pair is bad exactly when a sentence-terminal punctuation character is
immediately followed by whitespace (the split point of `([.!?])\s+`). -/
def sbOK (a b : Char) : Bool := !(isPunct3 a && isWS b)

/-- A string is a single sentence in the sense of the sentence splitter:
it contains no internal match of `[.!?]` followed by whitespace, hence the
splitter would never cut it.  This is the formal notion of an atomic unit. -/
def noSB (s : List Char) : Prop := List.Chain' (fun a b => sbOK a b = true) s

/-- Modelled from the spec (§4.4): `scan for the first occurrence of an
embedded image marker pattern`: the end position of the leftmost marker
occurrence, found by trying every start position from the left. -/
def firstMarkerEndSpec (s : List Char) : Option Nat :=
  (List.range (s.length + 1)).findSome?
    (fun p => (markerHead (s.drop p)).map (fun pr => s.length - pr.2.length))

/-- Modelled from the spec (§4.4): if a marker is found, `emit a new segment
consisting of text up to and including the marker (trimmed) — provided it is
non-empty; then emit a second segment consisting of the remaining text after
the marker (trimmed) — provided it is non-empty`; with no marker `the segment
passes through unchanged`. -/
def relocSpecSeg (s : List Char) : List (List Char) :=
  match firstMarkerEndSpec s with
  | some e =>
    (if strip (s.take e) = [] then [] else [strip (s.take e)]) ++
      (if strip (s.drop e) = [] then [] else [strip (s.drop e)])
  | none => [s]

/-- The relocation pass over the whole packed sequence (the `for segment in
segments` loop building `final_segments`). -/
def relocatePass (segs : List (List Char)) : List (List Char) :=
  segs.foldr (fun s acc => relocateSegment s ++ acc) []

/-- Invariant linking the scanner accumulator to the remaining input: the
character pair spanning the boundary (last consumed, next to consume) was
already checked not to be a sentence-split point. -/
def accOK (acc s : List Char) : Prop :=
  match acc, s with
  | a :: _, b :: _ => sbOK a b = true
  | _, _ => True

/-- Structure of a well-formed block: a (possibly empty) run of
bullet/numbered lines followed by a (possibly empty) run of non-bullet
lines — once a non-bullet line occurs, no later line is a bullet line. -/
def bulletsThenPlains (bls : List (List Char)) : Bool :=
  (bls.dropWhile (fun l => isBulletLine (strip l))).all
    (fun l => !isBulletLine (strip l))

/-! ### Generic list helpers -/

theorem takeWhile_all_stop {p : Char → Bool} {d : List Char} (x : Char)
    (y : List Char) (hd : ∀ c ∈ d, p c = true) (hx : p x = false) :
    (d ++ x :: y).takeWhile p = d := by
  induction d with
  | nil => simp [List.takeWhile, hx]
  | cons a d ih =>
    have ha : p a = true := hd a (by simp)
    simp only [List.cons_append, List.takeWhile_cons, ha, if_true]
    rw [ih (fun c hc => hd c (by simp [hc]))]

theorem dropWhile_all_stop {p : Char → Bool} {d : List Char} (x : Char)
    (y : List Char) (hd : ∀ c ∈ d, p c = true) (hx : p x = false) :
    (d ++ x :: y).dropWhile p = x :: y := by
  induction d with
  | nil => simp [List.dropWhile, hx]
  | cons a d ih =>
    have ha : p a = true := hd a (by simp)
    simp only [List.cons_append, List.dropWhile_cons, ha, if_true]
    exact ih (fun c hc => hd c (by simp [hc]))

/-! ### Marker shape lemmas -/

theorem marker_char_not_ws {c : Char} (h : Char.isDigit c = true) : isWS c = false := by
  cases hws : isWS c
  · rfl
  · exfalso
    simp only [isWS, Bool.or_eq_true, decide_eq_true_eq] at hws
    rcases hws with ((((rfl | rfl) | rfl) | rfl) | rfl) | rfl <;>
      exact absurd h (by decide)

theorem mkMarker_not_ws {d : List Char} (hd : ∀ c ∈ d, Char.isDigit c = true) :
    ∀ c ∈ mkMarker d, isWS c = false := by
  intro c hc
  simp only [mkMarker, List.mem_cons] at hc
  rcases hc with rfl | rfl | rfl | rfl | rfl | hc
  · rfl
  · rfl
  · rfl
  · rfl
  · rfl
  · rcases List.mem_append.mp hc with hcd | hlit
    · exact marker_char_not_ws (hd c hcd)
    · simp only [List.mem_cons, List.not_mem_nil, or_false] at hlit
      rcases hlit with rfl | rfl
      · rfl
      · rfl

theorem mkMarker_length (d : List Char) : (mkMarker d).length = d.length + 7 := by
  simp [mkMarker]

theorem markerHead_some {s d r} (h : markerHead s = some (d, r)) :
    s = mkMarker d ++ r ∧ d ≠ [] ∧ ∀ c ∈ d, Char.isDigit c = true := by
  unfold markerHead at h
  by_cases h5 : s.take 5 = ['!', '[', ']', '(', '$']
  case neg => rw [if_neg h5] at h; exact absurd h (by simp)
  case pos =>
    rw [if_pos h5] at h
    by_cases hde : ((s.drop 5).takeWhile Char.isDigit).isEmpty = true
    case pos => rw [if_pos hde] at h; exact absurd h (by simp)
    case neg =>
      rw [if_neg hde] at h
      cases hdw : (s.drop 5).dropWhile Char.isDigit with
      | nil => rw [hdw] at h; exact absurd h (by simp)
      | cons d1 tl =>
        cases tl with
        | nil => rw [hdw] at h; exact absurd h (by simp)
        | cons d2 r' =>
          rw [hdw] at h
          dsimp only at h
          by_cases h12 : (d1 = '$' && d2 = ')') = true
          case neg => rw [if_neg h12] at h; exact absurd h (by simp)
          case pos =>
            rw [if_pos h12] at h
            simp only [Bool.and_eq_true, decide_eq_true_eq] at h12
            obtain ⟨f1, f2⟩ := h12; subst f1; subst f2
            obtain ⟨hds, hr⟩ : (s.drop 5).takeWhile Char.isDigit = d ∧ r' = r := by
              simpa using h
            subst hr
            have hdigit : ∀ c ∈ d, Char.isDigit c = true := by
              intro c hc
              rw [← hds] at hc
              exact List.mem_takeWhile_imp hc
            refine ⟨?_, ?_, hdigit⟩
            · have hsplit := List.takeWhile_append_dropWhile
                (p := Char.isDigit) (l := s.drop 5)
              rw [hds, hdw] at hsplit
              have hs : s = s.take 5 ++ s.drop 5 := (List.take_append_drop 5 s).symm
              rw [h5, ← hsplit] at hs
              rw [hs]
              simp [mkMarker]
            · intro hdnil
              rw [hdnil] at hds
              rw [hds] at hde
              simp at hde

theorem mkMarker_append_eq (d z : List Char) :
    mkMarker d ++ z = '!' :: '[' :: ']' :: '(' :: '$' :: (d ++ '$' :: ')' :: z) := by
  simp [mkMarker]

theorem markerHead_mk {d : List Char} (z : List Char) (hne : d ≠ [])
    (hd : ∀ c ∈ d, Char.isDigit c = true) :
    markerHead (mkMarker d ++ z) = some (d, z) := by
  have hdollar : Char.isDigit '$' = false := by decide
  have htw : ((d ++ '$' :: ')' :: z).takeWhile Char.isDigit) = d :=
    takeWhile_all_stop '$' (')' :: z) hd hdollar
  have hdw : ((d ++ '$' :: ')' :: z).dropWhile Char.isDigit) = '$' :: ')' :: z :=
    dropWhile_all_stop '$' (')' :: z) hd hdollar
  rw [mkMarker_append_eq]
  unfold markerHead
  rw [if_pos (by simp)]
  have hdrop : ('!' :: '[' :: ']' :: '(' :: '$' :: (d ++ '$' :: ')' :: z)).drop 5
      = d ++ '$' :: ')' :: z := by simp
  rw [hdrop, htw, hdw]
  rw [if_neg (by simp [hne])]
  simp

theorem markerHead_rest_lt {s d r} (h : markerHead s = some (d, r)) :
    r.length < s.length := by
  obtain ⟨hs, _, _⟩ := markerHead_some h
  rw [hs, List.length_append, mkMarker_length]
  omega

/-! ### Fuel congruence and unfolding equations -/

theorem rmF_congr : ∀ f1 : Nat, ∀ f2 s, s.length ≤ f1 → s.length ≤ f2 →
    rmF f1 s = rmF f2 s := by
  intro f1
  induction f1 with
  | zero =>
    intro f2 s h1 _
    have : s = [] := List.length_eq_zero.mp (Nat.le_zero.mp h1)
    subst this
    cases f2 <;> rfl
  | succ f1 ih =>
    intro f2 s h1 h2
    cases s with
    | nil => cases f2 <;> rfl
    | cons c t =>
      cases f2 with
      | zero => simp at h2
      | succ f2 =>
        simp only [rmF]
        cases hm : markerHead (c :: t) with
        | some dr =>
          obtain ⟨d, r⟩ := dr
          have hlt := markerHead_rest_lt hm
          simp only [List.length_cons] at h1 h2 hlt
          exact ih f2 r (by omega) (by omega)
        | none =>
          simp only [List.length_cons] at h1 h2
          rw [ih f2 t (by omega) (by omega)]

theorem removeMarkers_cons_some {c t d r} (h : markerHead (c :: t) = some (d, r)) :
    removeMarkers (c :: t) = removeMarkers r := by
  have hle : r.length ≤ t.length := by
    have := markerHead_rest_lt h
    simp only [List.length_cons] at this
    omega
  unfold removeMarkers
  simp only [List.length_cons, rmF, h]
  exact rmF_congr t.length r.length r hle (le_refl _)

theorem removeMarkers_cons_none {c t} (h : markerHead (c :: t) = none) :
    removeMarkers (c :: t) = c :: removeMarkers t := by
  unfold removeMarkers
  simp only [List.length_cons, rmF, h]

theorem cmF_congr : ∀ f1 : Nat, ∀ f2 s, s.length ≤ f1 → s.length ≤ f2 →
    cmF f1 s = cmF f2 s := by
  intro f1
  induction f1 with
  | zero =>
    intro f2 s h1 _
    have : s = [] := List.length_eq_zero.mp (Nat.le_zero.mp h1)
    subst this
    cases f2 <;> rfl
  | succ f1 ih =>
    intro f2 s h1 h2
    cases s with
    | nil => cases f2 <;> rfl
    | cons c t =>
      cases f2 with
      | zero => simp at h2
      | succ f2 =>
        simp only [cmF]
        cases hm : markerHead (c :: t) with
        | some dr =>
          obtain ⟨d, r⟩ := dr
          have hlt := markerHead_rest_lt hm
          simp only [List.length_cons] at h1 h2 hlt
          dsimp only
          rw [ih f2 r (by omega) (by omega)]
        | none =>
          simp only [List.length_cons] at h1 h2
          dsimp only
          rw [ih f2 t (by omega) (by omega)]

theorem countMarkers_cons_some {c t d r} (h : markerHead (c :: t) = some (d, r)) :
    countMarkers (c :: t) = 1 + countMarkers r := by
  have hle : r.length ≤ t.length := by
    have := markerHead_rest_lt h
    simp only [List.length_cons] at this
    omega
  unfold countMarkers
  simp only [List.length_cons, cmF, h]
  rw [cmF_congr t.length r.length r hle (le_refl _)]

theorem countMarkers_cons_none {c t} (h : markerHead (c :: t) = none) :
    countMarkers (c :: t) = countMarkers t := by
  unfold countMarkers
  simp only [List.length_cons, cmF, h]

theorem strip_nil : strip [] = [] := rfl

theorem wc_nil : wc [] = 0 := rfl

/-! ### Word-count lemmas -/

theorem isWS_eq_false {c : Char} (h : ¬ isWS c = true) : isWS c = false := by
  revert h; cases isWS c <;> simp

theorem wcA_append (a : List Char) : ∀ (b : Bool) (y : List Char),
    wcA b (a ++ y) = wcA b a + wcA (inW b a) y := by
  induction a with
  | nil => intro b y; simp [wcA, inW]
  | cons c t ih =>
    intro b y
    cases hc : isWS c
    · cases b <;> (simp [wcA, inW, hc, ih]; try omega)
    · simp [wcA, inW, hc, ih]

theorem wcA_allWS {w : List Char} (h : ∀ c ∈ w, isWS c = true) :
    ∀ b, wcA b w = 0 := by
  induction w with
  | nil => intro b; rfl
  | cons c t ih =>
    intro b
    have hc := h c (by simp)
    simp [wcA, hc]
    exact ih (fun x hx => h x (by simp [hx])) false

theorem inW_false_allWS {w : List Char} (h : ∀ c ∈ w, isWS c = true) :
    inW false w = false := by
  induction w with
  | nil => rfl
  | cons c t ih =>
    have hc := h c (by simp)
    simp [inW, hc]
    exact ih (fun x hx => h x (by simp [hx]))

theorem wcA_true_le_false (y : List Char) : wcA true y ≤ wcA false y := by
  cases y with
  | nil => exact le_refl _
  | cons c t =>
    cases hc : isWS c <;> simp [wcA, hc]

theorem wcA_false_le_true_add (y : List Char) : wcA false y ≤ wcA true y + 1 := by
  cases y with
  | nil => exact Nat.zero_le _
  | cons c t =>
    cases hc : isWS c
    · have h1 : wcA false (c :: t) = 1 + wcA true t := by simp [wcA, hc]
      have h2 : wcA true (c :: t) = wcA true t := by simp [wcA, hc]
      omega
    · have h1 : wcA false (c :: t) = wcA false t := by simp [wcA, hc]
      have h2 : wcA true (c :: t) = wcA false t := by simp [wcA, hc]
      omega

theorem wcA_pos_of_inW {a : List Char} : inW false a = true → 1 ≤ wcA false a := by
  induction a with
  | nil => intro h; simp [inW] at h
  | cons c t ih =>
    intro h
    cases hc : isWS c
    · have h1 : wcA false (c :: t) = 1 + wcA true t := by simp [wcA, hc]
      omega
    · simp only [inW, hc, Bool.not_true] at h
      have h1 : wcA false (c :: t) = wcA false t := by simp [wcA, hc]
      rw [h1]
      exact ih h

theorem wc_le_append_right (a y : List Char) : wc a ≤ wc (a ++ y) := by
  unfold wc
  rw [wcA_append]
  omega

theorem wc_le_append_left (a y : List Char) : wc y ≤ wc (a ++ y) := by
  unfold wc
  rw [wcA_append]
  cases hs : inW false a
  · omega
  · have h1 := wcA_pos_of_inW hs
    have h2 := wcA_false_le_true_add y
    omega

theorem wc_take_le (n : Nat) (s : List Char) : wc (s.take n) ≤ wc s := by
  conv_rhs => rw [← List.take_append_drop n s]
  exact wc_le_append_right _ _

theorem wc_drop_le (n : Nat) (s : List Char) : wc (s.drop n) ≤ wc s := by
  conv_rhs => rw [← List.take_append_drop n s]
  exact wc_le_append_left _ _

theorem wc_sep_append {c : Char} (hc : isWS c = true) (a b : List Char) :
    wc (a ++ c :: b) = wc a + wc b := by
  unfold wc
  rw [wcA_append]
  have : ∀ s : Bool, wcA s (c :: b) = wcA false b := by
    intro s; simp [wcA, hc]
  rw [this]

/-! ### Strip lemmas -/

theorem dropTrail_decomp :
    ∀ y : List Char, ∃ w, y = dropTrail y ++ w ∧ ∀ c ∈ w, isWS c = true := by
  intro y
  induction y with
  | nil => exact ⟨[], rfl, by simp⟩
  | cons c t ih =>
    obtain ⟨w, hw, hall⟩ := ih
    cases hdt : dropTrail t with
    | nil =>
      rw [hdt] at hw
      simp only [List.nil_append] at hw
      cases hc : isWS c
      · refine ⟨w, ?_, hall⟩
        simp [dropTrail, hdt, hc]
        exact hw
      · refine ⟨c :: w, ?_, ?_⟩
        · simp [dropTrail, hdt, hc]
          exact hw
        · intro x hx
          rcases List.mem_cons.mp hx with rfl | hx
          · exact hc
          · exact hall x hx
    | cons d r =>
      rw [hdt] at hw
      refine ⟨w, ?_, hall⟩
      simp [dropTrail, hdt]
      exact hw

theorem dropTrail_eq_nil_iff {y : List Char} :
    dropTrail y = [] ↔ ∀ c ∈ y, isWS c = true := by
  constructor
  · intro h
    obtain ⟨w, hw, hall⟩ := dropTrail_decomp y
    rw [h, List.nil_append] at hw
    rw [hw]
    exact hall
  · intro h
    induction y with
    | nil => rfl
    | cons c t ih =>
      have hc := h c (by simp)
      have ht : dropTrail t = [] := ih (fun x hx => h x (by simp [hx]))
      simp [dropTrail, ht, hc]

theorem strip_within (s : List Char) :
    ∃ u v, s = u ++ strip s ++ v ∧
      (∀ c ∈ u, isWS c = true) ∧ (∀ c ∈ v, isWS c = true) := by
  obtain ⟨w, hw, hall⟩ := dropTrail_decomp (s.dropWhile isWS)
  refine ⟨s.takeWhile isWS, w, ?_, ?_, hall⟩
  · conv_lhs => rw [← List.takeWhile_append_dropWhile (p := isWS) (l := s)]
    unfold strip
    rw [List.append_assoc, ← hw]
  · intro c hc
    exact List.mem_takeWhile_imp hc

theorem strip_eq_nil_iff {s : List Char} :
    strip s = [] ↔ ∀ c ∈ s, isWS c = true := by
  unfold strip
  rw [dropTrail_eq_nil_iff]
  constructor
  · intro h c hc
    by_cases hcw : isWS c = true
    · exact hcw
    · exfalso
      have : c ∈ s.dropWhile isWS := by
        have hsplit := List.takeWhile_append_dropWhile (p := isWS) (l := s)
        rw [← hsplit] at hc
        rcases List.mem_append.mp hc with h1 | h1
        · exact absurd (List.mem_takeWhile_imp h1) hcw
        · exact h1
      exact hcw (h c this)
  · intro h c hc
    exact h c (List.dropWhile_sublist isWS |>.mem hc)

theorem wc_strip (s : List Char) : wc (strip s) = wc s := by
  obtain ⟨u, v, hs, hu, hv⟩ := strip_within s
  conv_rhs => rw [hs]
  unfold wc
  rw [wcA_append, wcA_append, wcA_allWS hu, inW_false_allWS hu, wcA_allWS hv]
  omega

theorem wc_pos_ne_nil {s : List Char} (h : 0 < wc s) : s ≠ [] := by
  intro he
  rw [he] at h
  simp [wc, wcA] at h

/-! ### Whitespace-free character content -/

theorem dws_append (a b : List Char) : dws (a ++ b) = dws a ++ dws b := by
  simp [dws]

theorem dws_allWS {w : List Char} (h : ∀ c ∈ w, isWS c = true) : dws w = [] := by
  unfold dws
  rw [List.filter_eq_nil_iff]
  intro c hc
  simp [h c hc]

theorem dws_strip (s : List Char) : dws (strip s) = dws s := by
  obtain ⟨u, v, hs, hu, hv⟩ := strip_within s
  conv_rhs => rw [hs]
  rw [dws_append, dws_append, dws_allWS hu, dws_allWS hv]
  simp

theorem dws_of_strip_nil {s : List Char} (h : strip s = []) : dws s = [] := by
  rw [← dws_strip, h]
  rfl

theorem strip_ne_nil_of_not_ws {s : List Char} {c : Char}
    (hc : c ∈ s) (hw : isWS c = false) : strip s ≠ [] := by
  intro h
  have := strip_eq_nil_iff.mp h c hc
  rw [hw] at this
  exact absurd this (by simp)

/-! ### noSB (single-sentence) lemmas -/

theorem noSB_within {u m v : List Char} (h : noSB (u ++ m ++ v)) : noSB m := by
  unfold noSB at *
  rw [List.append_assoc] at h
  exact ((List.chain'_append.mp ((List.chain'_append.mp h).2.1)).1)

theorem noSB_take {s : List Char} (n : Nat) (h : noSB s) : noSB (s.take n) := by
  have hs : s = [] ++ s.take n ++ s.drop n := by simp
  rw [hs] at h
  exact noSB_within h

theorem noSB_drop {s : List Char} (n : Nat) (h : noSB s) : noSB (s.drop n) := by
  have hs : s = s.take n ++ s.drop n ++ [] := by simp
  rw [hs] at h
  exact noSB_within h

theorem noSB_strip {s : List Char} (h : noSB s) : noSB (strip s) := by
  obtain ⟨u, v, hs, _, _⟩ := strip_within s
  rw [hs] at h
  exact noSB_within h

/-! ### Decomposing membership in the classifier output -/

theorem mem_gss {seg : ScriptSegment} {text : List Char} {mw : Nat}
    (h : seg ∈ get_script_segments text mw) :
    ∃ raw, raw ∈ split_markdown_for_video_with_image_split text mw ∧
      seg = classify raw := by
  unfold get_script_segments at h
  have h1 := (List.mem_filter.mp h).1
  obtain ⟨raw, hr, he⟩ := List.mem_map.mp h1
  exact ⟨raw, hr, he.symm⟩

theorem classify_raw_text (raw : List Char) : (classify raw).raw_text = raw := by
  unfold classify
  cases findMarkerVal raw <;> rfl

theorem classify_has_image_iff (raw : List Char) :
    (classify raw).has_image = true ↔ (classify raw).image_index ≠ none := by
  unfold classify
  cases findMarkerVal raw <;> simp

/-! ### Claim C8 -/

/-- Claim C8: `get_script_segments` is total over string input — in this
shallow embedding it is a total function, and on the empty string it returns
the empty output sequence, for every word budget. -/
theorem C8_theorem : ∀ mw : Nat, get_script_segments (strOf "") mw = [] :=
  fun _ => rfl

/-! ### Claim C6 -/

/-- Claim C6 fails as stated: `image_index` need not be positive.  On the
input `"hello ![]($0$)"` the pipeline returns a segment whose `image_index`
is `some 0`, because the regex `\d+` accepts the digit string `0`. -/
theorem C6_counterexample :
    ∃ seg ∈ get_script_segments (strOf "hello ![]($0$)") 150,
      seg.has_image = true ∧ seg.image_index = some 0 := by decide

/-- Claim C6 (amended): for every input, every returned `ScriptSegment`
satisfies `has_image = true` iff `image_index` is present; positivity of the
index does not hold in general (the marker digits may be `0`). -/
theorem C6_theorem :
    ∀ (text : List Char) (mw : Nat) (seg : ScriptSegment),
      seg ∈ get_script_segments text mw →
      (seg.has_image = true ↔ seg.image_index ≠ none) := by
  intro text mw seg h
  obtain ⟨raw, _, rfl⟩ := mem_gss h
  exact classify_has_image_iff raw

/-- Witness for C6: the amended equivalence, instantiated on the segment
produced from `"Money is a tool. ![]($1$)"`. -/
theorem C6_witness :
    ((ScriptSegment.mk (strOf "Money is a tool.") (some 1) true
        (strOf "Money is a tool. ![]($1$)")).has_image = true ↔
      (ScriptSegment.mk (strOf "Money is a tool.") (some 1) true
        (strOf "Money is a tool. ![]($1$)")).image_index ≠ none) :=
  C6_theorem (strOf "Money is a tool. ![]($1$)") 150 _ (by decide)

/-! ### Claim C10 -/

/-- Claim C10: the relocator performs at most one split per packed segment
(each segment yields at most two output segments), and the after-marker
remainder is not rescanned: on `"x ![]($3$) y ![]($4$) z"` the final output
contains a `ScriptSegment` whose `raw_text` still contains exactly one
marker — the marker after the first one of its source segment. -/
theorem C10_theorem :
    (∀ s : List Char, (relocateSegment s).length ≤ 2) ∧
      (∃ seg ∈ get_script_segments (strOf "x ![]($3$) y ![]($4$) z") 150,
        seg.has_image = true ∧ countMarkers seg.raw_text = 1) := by
  constructor
  · intro s
    unfold relocateSegment
    cases findMarkerEnd s with
    | none => simp
    | some e =>
      by_cases h1 : (strip (s.take e)).isEmpty <;>
        by_cases h2 : (strip (s.drop e)).isEmpty <;>
          simp [h1, h2]
  · decide

/-! ### Claim C2: the relocator refines the spec's per-segment description -/

theorem findSome?_congr {α β : Type} {f g : α → Option β} :
    ∀ l : List α, (∀ a ∈ l, f a = g a) → l.findSome? f = l.findSome? g := by
  intro l
  induction l with
  | nil => intro _; rfl
  | cons a t ih =>
    intro h
    rw [List.findSome?_cons, List.findSome?_cons, h a (by simp)]
    cases g a with
    | some b => rfl
    | none => exact ih (fun x hx => h x (by simp [hx]))

theorem findSome?_option_map {α β γ : Type} (g : α → Option β) (h : β → γ) :
    ∀ l : List α,
      l.findSome? (fun a => (g a).map h) = (l.findSome? g).map h := by
  intro l
  induction l with
  | nil => rfl
  | cons a t ih =>
    rw [List.findSome?_cons, List.findSome?_cons]
    cases g a with
    | some b => rfl
    | none => simpa using ih

theorem findMarkerEnd_eq_spec : ∀ s : List Char,
    findMarkerEnd s = firstMarkerEndSpec s := by
  intro s
  induction s with
  | nil => rfl
  | cons c t ih =>
    unfold firstMarkerEndSpec
    have hlen : (c :: t).length + 1 = t.length + 1 + 1 := by simp
    rw [hlen, List.range_succ_eq_map, List.findSome?_cons]
    cases hm : markerHead (c :: t) with
    | some pr =>
      obtain ⟨d, r⟩ := pr
      simp [findMarkerEnd, hm]
    | none =>
      have hstep :
          (List.range (t.length + 1)).findSome?
              ((fun p => (markerHead ((c :: t).drop p)).map
                (fun pr => (c :: t).length - pr.2.length)) ∘ Nat.succ) =
            (List.range (t.length + 1)).findSome?
              (fun p => ((markerHead (t.drop p)).map
                (fun pr => t.length - pr.2.length)).map (fun n => n + 1)) := by
        apply findSome?_congr
        intro p _
        simp only [Function.comp_apply, List.drop_succ_cons]
        cases hmp : markerHead (t.drop p) with
        | none => simp
        | some pr =>
          obtain ⟨d, r⟩ := pr
          have hr : r.length < (t.drop p).length := markerHead_rest_lt hmp
          have hd : (t.drop p).length ≤ t.length := by
            rw [List.length_drop]; omega
          simp only [Option.map_some', Option.some_inj, List.length_cons]
          omega
      simp only [findMarkerEnd, hm, List.drop_zero, Option.map_none']
      rw [List.findSome?_map, hstep, findSome?_option_map, ih]
      rfl

theorem relocateSegment_eq_spec (s : List Char) :
    relocateSegment s = relocSpecSeg s := by
  unfold relocateSegment relocSpecSeg
  rw [← findMarkerEnd_eq_spec]
  cases findMarkerEnd s with
  | none => rfl
  | some e =>
    dsimp only
    by_cases h1 : strip (s.take e) = [] <;> by_cases h2 : strip (s.drop e) = [] <;>
      simp [h1, h2, List.isEmpty_iff]

theorem relocatePass_cons (s : List Char) (t : List (List Char)) :
    relocatePass (s :: t) = relocateSegment s ++ relocatePass t := rfl

theorem relocatePass_append (l1 l2 : List (List Char)) :
    relocatePass (l1 ++ l2) = relocatePass l1 ++ relocatePass l2 := by
  induction l1 with
  | nil => rfl
  | cons s t ih =>
    rw [List.cons_append, relocatePass_cons, relocatePass_cons, ih,
      List.append_assoc]

/-- The final loop of `split_markdown_for_video_with_image_split` is exactly
the relocation pass applied to the packed segment sequence. -/
theorem split_markdown_eq_relocatePass (text : List Char) (mw : Nat) :
    split_markdown_for_video_with_image_split text mw =
      relocatePass ((gbGo (splitLines (strip text)) []).foldr
        (fun b acc => processBlock mw b ++ acc) []) := rfl

/-- Claim C2: for every packed segment `s`, spliced anywhere into the packed
sequence, the relocation pass replaces `s` in place (later segments shift) by
exactly what the spec prescribes: the trimmed text up to and including the
first (leftmost) marker occurrence if non-empty, then the trimmed remaining
text if non-empty; and a segment with no marker passes through unchanged
(`relocSpecSeg` is a word-for-word rendering of spec §4.4). -/
theorem C2_theorem : ∀ (pre post : List (List Char)) (s : List Char),
    relocatePass (pre ++ s :: post) =
      relocatePass pre ++ relocSpecSeg s ++ relocatePass post := by
  intro pre post s
  rw [relocatePass_append, relocatePass_cons, relocateSegment_eq_spec,
    List.append_assoc]


/-! ### Claim C5: multiple markers in one segment -/

theorem markerHead_ws_head {c : Char} {t : List Char} (hc : isWS c = true) :
    markerHead (c :: t) = none := by
  unfold markerHead
  rw [if_neg]
  intro h5
  have : c = '!' := by
    have := congrArg (fun l => l.head?) h5
    simpa [List.take] using this
  rw [this] at hc
  exact absurd hc (by decide)

theorem countMarkers_allWS {w : List Char} (h : ∀ c ∈ w, isWS c = true) :
    countMarkers w = 0 := by
  induction w with
  | nil => rfl
  | cons c t ih =>
    rw [countMarkers_cons_none (markerHead_ws_head (h c (by simp)))]
    exact ih (fun x hx => h x (by simp [hx]))

theorem markerHead_append_ws {x w : List Char} (hw : ∀ c ∈ w, isWS c = true) :
    (markerHead (x ++ w) = none ∧ markerHead x = none) ∨
      ∃ d r, markerHead x = some (d, r) ∧ markerHead (x ++ w) = some (d, r ++ w) := by
  cases hm : markerHead x with
  | some pr =>
    obtain ⟨d, r⟩ := pr
    obtain ⟨hx, hne, hd⟩ := markerHead_some hm
    right
    refine ⟨d, r, rfl, ?_⟩
    rw [hx, List.append_assoc]
    exact markerHead_mk (r ++ w) hne hd
  | none =>
    left
    refine ⟨?_, rfl⟩
    cases hmw : markerHead (x ++ w) with
    | none => rfl
    | some pr =>
      exfalso
      obtain ⟨d, r⟩ := pr
      obtain ⟨hxw, hne, hd⟩ := markerHead_some hmw
      rcases List.append_eq_append_iff.mp hxw with ⟨a', ha1, ha2⟩ | ⟨c', hc1, hc2⟩
      · -- mkMarker d = x ++ a', w = a' ++ r
        cases a' with
        | nil =>
          rw [List.append_nil] at ha1
          have h0 := markerHead_mk (d := d) [] hne hd
          rw [List.append_nil, ha1] at h0
          rw [h0] at hm
          exact absurd hm (by simp)
        | cons a as =>
          have haw : isWS a = true := hw a (by rw [ha2]; simp)
          have ham : a ∈ mkMarker d := by rw [ha1]; simp
          have := mkMarker_not_ws hd a ham
          rw [haw] at this
          exact absurd this (by simp)
      · -- x = mkMarker d ++ c'
        have : markerHead x = some (d, c') := by
          rw [hc1]
          exact markerHead_mk c' hne hd
        rw [this] at hm
        exact absurd hm (by simp)

theorem countMarkers_append_ws : ∀ n : Nat, ∀ x w : List Char, x.length ≤ n →
    (∀ c ∈ w, isWS c = true) → countMarkers (x ++ w) = countMarkers x := by
  intro n
  induction n with
  | zero =>
    intro x w hx hw
    have : x = [] := List.length_eq_zero.mp (Nat.le_zero.mp hx)
    subst this
    simpa using countMarkers_allWS hw
  | succ n ih =>
    intro x w hx hw
    cases x with
    | nil => simpa using countMarkers_allWS hw
    | cons c t =>
      rcases markerHead_append_ws (x := c :: t) hw with ⟨h1, h2⟩ | ⟨d, r, h2, h1⟩
      · rw [countMarkers_cons_none h2]
        have h1' : markerHead (c :: (t ++ w)) = none := by
          simpa using h1
        rw [show (c :: t) ++ w = c :: (t ++ w) from rfl,
          countMarkers_cons_none h1']
        simp only [List.length_cons] at hx
        exact ih t w (by omega) hw
      · have hlt := markerHead_rest_lt h2
        simp only [List.length_cons] at hx hlt
        have h1' : markerHead (c :: (t ++ w)) = some (d, r ++ w) := by
          simpa using h1
        rw [show (c :: t) ++ w = c :: (t ++ w) from rfl,
          countMarkers_cons_some h1', countMarkers_cons_some h2]
        rw [ih r w (by omega) hw]

theorem countMarkers_dropWhileWS (s : List Char) :
    countMarkers (s.dropWhile isWS) = countMarkers s := by
  induction s with
  | nil => rfl
  | cons c t ih =>
    cases hc : isWS c
    · simp [List.dropWhile_cons, hc]
    · rw [List.dropWhile_cons, if_pos (by simp [hc]),
        countMarkers_cons_none (markerHead_ws_head hc)]
      exact ih

theorem countMarkers_strip (s : List Char) :
    countMarkers (strip s) = countMarkers s := by
  obtain ⟨w, hw, hall⟩ := dropTrail_decomp (s.dropWhile isWS)
  have h1 : countMarkers (s.dropWhile isWS) = countMarkers (strip s) := by
    conv_lhs => rw [hw]
    exact countMarkers_append_ws (strip s).length (strip s) w (le_refl _) hall
  rw [← h1, countMarkers_dropWhileWS]

theorem countMarkers_pos_has_nonWS : ∀ n : Nat, ∀ y : List Char, y.length ≤ n →
    1 ≤ countMarkers y → ∃ c ∈ y, isWS c = false := by
  intro n
  induction n with
  | zero =>
    intro y hy hc
    have : y = [] := List.length_eq_zero.mp (Nat.le_zero.mp hy)
    subst this
    simp [countMarkers, cmF] at hc
  | succ n ih =>
    intro y hy hc
    cases y with
    | nil => simp [countMarkers, cmF] at hc
    | cons c t =>
      cases hm : markerHead (c :: t) with
      | some pr =>
        obtain ⟨d, r⟩ := pr
        obtain ⟨hs, _, hd⟩ := markerHead_some hm
        refine ⟨'!', ?_, by decide⟩
        rw [hs]
        simp [mkMarker]
      | none =>
        rw [countMarkers_cons_none hm] at hc
        simp only [List.length_cons] at hy
        obtain ⟨x, hx, hxw⟩ := ih t (by omega) hc
        exact ⟨x, by simp [hx], hxw⟩

theorem findMarkerEnd_count : ∀ s : List Char, ∀ e : Nat,
    findMarkerEnd s = some e → countMarkers s = 1 + countMarkers (s.drop e) := by
  intro s
  induction s with
  | nil => intro e h; simp [findMarkerEnd] at h
  | cons c t ih =>
    intro e h
    cases hm : markerHead (c :: t) with
    | some pr =>
      obtain ⟨d, r⟩ := pr
      simp only [findMarkerEnd, hm, Option.some_inj] at h
      obtain ⟨hs, _, _⟩ := markerHead_some hm
      have hlen : e = (mkMarker d).length := by
        rw [← h, hs]
        simp [mkMarker_length]
      have hdrop : (c :: t).drop e = r := by
        rw [hlen, hs, List.drop_left]
      rw [hdrop, countMarkers_cons_some hm]
    | none =>
      simp only [findMarkerEnd, hm] at h
      obtain ⟨e', he', rfl⟩ := Option.map_eq_some'.mp h
      rw [List.drop_succ_cons, countMarkers_cons_none hm]
      exact ih e' he'

/-- Claim C5: if a packed segment contains two or more markers, only the
first occurrence is honoured: the relocator splits exactly at the end `e` of
the first match, the after-part is always emitted (it is non-blank since it
holds the later markers), and those later markers survive verbatim inside the
emitted after-segment — there are exactly `countMarkers s - 1` of them. -/
theorem C5_theorem : ∀ (s : List Char) (e : Nat),
    findMarkerEnd s = some e → 2 ≤ countMarkers s →
    relocateSegment s =
      (if (strip (s.take e)).isEmpty then [] else [strip (s.take e)]) ++
        [strip (s.drop e)] ∧
    countMarkers (strip (s.drop e)) = countMarkers s - 1 ∧
    1 ≤ countMarkers (strip (s.drop e)) := by
  intro s e hfme hcm
  have hcount := findMarkerEnd_count s e hfme
  have hdrop_cm : countMarkers (strip (s.drop e)) = countMarkers s - 1 := by
    rw [countMarkers_strip]
    omega
  have hpos : 1 ≤ countMarkers (strip (s.drop e)) := by omega
  refine ⟨?_, hdrop_cm, hpos⟩
  have hne : strip (s.drop e) ≠ [] := by
    intro hnil
    rw [hnil] at hpos
    simp [countMarkers, cmF] at hpos
  have hie : (strip (s.drop e)).isEmpty = false := by
    cases hie : (strip (s.drop e)).isEmpty
    · rfl
    · exact absurd (List.isEmpty_iff.mp hie) hne
  unfold relocateSegment
  rw [hfme]
  dsimp only
  simp [hie]

/-- Witness for C5, on `"a ![]($1$) b ![]($2$) c"` (first match ends at 10):
the emitted after-segment still contains a marker. -/
theorem C5_witness :
    1 ≤ countMarkers (strip ((strOf "a ![]($1$) b ![]($2$) c").drop 10)) :=
  (C5_theorem (strOf "a ![]($1$) b ![]($2$) c") 10 (by decide) (by decide)).2.2

/-! ### Claim C7: oversized sentences are emitted unsplit -/

theorem sltGo_cons (mw : Nat) (a : List Char) (rest : List (List Char))
    (cur : List Char) (cwc : Nat) :
    sltGo mw (a :: rest) cur cwc =
      if (strip a).isEmpty then sltGo mw rest cur cwc
      else if mw < wc (strip a) then
        (if cur.isEmpty then [] else [strip cur]) ++
          strip a :: sltGo mw rest [] 0
      else if mw < cwc + wc (strip a) then
        (if cur.isEmpty then [] else [strip cur]) ++
          sltGo mw rest (strip a) (wc (strip a))
      else
        sltGo mw rest (if cur.isEmpty then strip a else cur ++ ' ' :: strip a)
          (cwc + wc (strip a)) := rfl

theorem isEmpty_false_of_wc_pos {s : List Char} (h : 0 < wc s) :
    s.isEmpty = false := by
  cases hie : s.isEmpty
  · rfl
  · exact absurd (List.isEmpty_iff.mp hie) (wc_pos_ne_nil h)

theorem sltGo_mem_oversized (mw : Nat) :
    ∀ (sents : List (List Char)) (cur : List Char) (cwc : Nat) (s : List Char),
      s ∈ sents → mw < wc (strip s) → strip s ∈ sltGo mw sents cur cwc := by
  intro sents
  induction sents with
  | nil => intro cur cwc s h _; simp at h
  | cons a rest ih =>
    intro cur cwc s hmem hwc
    rw [sltGo_cons]
    rcases List.mem_cons.mp hmem with rfl | hmem
    · rw [if_neg (by simp [isEmpty_false_of_wc_pos (Nat.lt_of_le_of_lt (Nat.zero_le _) hwc)]),
        if_pos hwc]
      exact List.mem_append_right _ (List.mem_cons_self _ _)
    · by_cases h1 : (strip a).isEmpty
      · rw [if_pos h1]
        exact ih cur cwc s hmem hwc
      · rw [if_neg h1]
        by_cases h2 : mw < wc (strip a)
        · rw [if_pos h2]
          exact List.mem_append_right _
            (List.mem_cons_of_mem _ (ih [] 0 s hmem hwc))
        · rw [if_neg h2]
          by_cases h3 : mw < cwc + wc (strip a)
          · rw [if_pos h3]
            exact List.mem_append_right _
              (ih (strip a) (wc (strip a)) s hmem hwc)
          · rw [if_neg h3]
            exact ih _ _ s hmem hwc

/-- Claim C7: a single sentence whose word count exceeds the budget is
emitted by the sentence splitter as its own chunk, unsplit (first conjunct:
every over-budget sentence of the recombined sentence list of `text` appears,
trimmed but whole, as an element of `split_long_text text mw`); end-to-end,
such a sentence becomes its own output segment even though it exceeds
`maxWords` (second conjunct: with budget 3, the 7-word sentence survives as
one full `ScriptSegment`). -/
theorem C7_theorem :
    (∀ (text : List Char) (mw : Nat) (s : List Char),
        s ∈ recombine (reSplitSent text) → mw < wc (strip s) →
        strip s ∈ split_long_text text mw) ∧
      get_script_segments
          (strOf "Hi there. One two three four five six seven. Bye.") 3 =
        [⟨strOf "Hi there.", none, false, strOf "Hi there."⟩,
          ⟨strOf "One two three four five six seven.", none, false,
            strOf "One two three four five six seven."⟩,
          ⟨strOf "Bye.", none, false, strOf "Bye."⟩] ∧
      3 < wc (strOf "One two three four five six seven.") := by
  refine ⟨?_, by decide, by decide⟩
  intro text mw s hmem hwc
  exact sltGo_mem_oversized mw (recombine (reSplitSent text)) [] 0 s hmem hwc

/-- Witness for C7: the oversized middle sentence of the demo text is an
element of the splitter's output for budget 3. -/
theorem C7_witness :
    strip (strOf "One two three four five six seven.") ∈
      split_long_text (strOf "Hi there. One two three four five six seven. Bye.") 3 :=
  C7_theorem.1 (strOf "Hi there. One two three four five six seven. Bye.") 3
    (strOf "One two three four five six seven.") (by decide) (by decide)

/-- Claim C1 fails as stated: on `"![]($1$)x y\n\nz"` neither plain
concatenation of the returned segments nor concatenation with a single-space
separator reconstructs the input modulo whitespace normalisation — the
relocator split the word `![]($1$)x` at the end of the marker (moving `x`
into a new segment), and the block split dropped the paragraph break between
`y` and `z`. -/
theorem C1_counterexample :
    normWS (List.flatten
        (split_markdown_for_video_with_image_split (strOf "![]($1$)x y\n\nz") 150)) ≠
      normWS (strOf "![]($1$)x y\n\nz") ∧
    normWS (List.intercalate [' ']
        (split_markdown_for_video_with_image_split (strOf "![]($1$)x y\n\nz") 150)) ≠
      normWS (strOf "![]($1$)x y\n\nz") := by decide

/-- Claim C4 fails as stated: on the input `"- a\nx"` the plain-text line
`x` does not flush the open bullet-run; the grouper emits the single block
`"- a\nx"`, which mixes a bullet line with a plain-text line. -/
theorem C4_counterexample :
    gbGo (splitLines (strip (strOf "- a\nx"))) [] = [strOf "- a\nx"] ∧
    splitLines (strOf "- a\nx") = [strOf "- a", strOf "x"] ∧
    isBulletLine (strip (strOf "- a")) = true ∧
    isBulletLine (strip (strOf "x")) = false := by decide

/-! ### Claim C4 (amended): block structure of the grouper -/

theorem mem_of_mem_strip {c : Char} {s : List Char} (h : c ∈ strip s) : c ∈ s := by
  obtain ⟨u, v, hs, _, _⟩ := strip_within s
  rw [hs]
  simp [h]

theorem splitLines_no_nl : ∀ s : List Char, ∀ l ∈ splitLines s, '\n' ∉ l := by
  intro s
  induction s with
  | nil =>
    intro l hl
    simp only [splitLines] at hl
    simp only [List.mem_singleton] at hl
    subst hl
    simp
  | cons c t ih =>
    intro l hl
    by_cases hc : c = '\n'
    · rw [splitLines, if_pos hc] at hl
      rcases List.mem_cons.mp hl with rfl | hl
      · simp
      · exact ih l hl
    · rw [splitLines, if_neg hc] at hl
      cases hsl : splitLines t with
      | nil =>
        rw [hsl] at hl
        simp only [List.mem_singleton] at hl
        subst hl
        intro hmem
        simp only [List.mem_singleton] at hmem
        exact hc hmem.symm
      | cons l' ls =>
        rw [hsl] at hl
        rcases List.mem_cons.mp hl with rfl | hl
        · intro hmem
          rcases List.mem_cons.mp hmem with heq | hmem
          · exact hc heq.symm
          · exact ih l' (by rw [hsl]; simp) hmem
        · exact ih l (by rw [hsl]; simp [hl])

theorem bulletsThenPlains_nil : bulletsThenPlains [] = true := rfl

theorem bulletsThenPlains_singleton (l : List Char) :
    bulletsThenPlains [l] = true := by
  unfold bulletsThenPlains
  cases hb : isBulletLine (strip l)
  · simp [List.dropWhile, hb]
  · simp [List.dropWhile, hb]

theorem getLastD_mem_of_ne_nil {l : List (List Char)} (h : l ≠ []) :
    l.getLastD [] ∈ l := by
  rw [List.getLastD_eq_getLast?, List.getLast?_eq_getLast l h]
  simp [List.getLast_mem]

theorem all_bullet_of_btp_last : ∀ cur : List (List Char),
    bulletsThenPlains cur = true → cur ≠ [] →
    isBulletLine (strip (cur.getLastD [])) = true →
    ∀ x ∈ cur, isBulletLine (strip x) = true := by
  intro cur hbtp hne hlast
  by_contra hnot
  push_neg at hnot
  obtain ⟨x, hx, hxb⟩ := hnot
  have hxb' : isBulletLine (strip x) = false := by
    revert hxb; cases isBulletLine (strip x) <;> simp
  have hd : (cur.dropWhile (fun l => isBulletLine (strip l))) ≠ [] := by
    intro hnil
    have := List.dropWhile_eq_nil_iff.mp hnil x hx
    rw [hxb'] at this
    exact absurd this (by simp)
  unfold bulletsThenPlains at hbtp
  have hsplit : cur.takeWhile (fun l => isBulletLine (strip l)) ++
      cur.dropWhile (fun l => isBulletLine (strip l)) = cur :=
    List.takeWhile_append_dropWhile _ cur
  have hlast2 : cur.getLast? =
      (cur.dropWhile (fun l => isBulletLine (strip l))).getLast? := by
    conv_lhs => rw [← hsplit]
    rw [List.getLast?_append]
    cases hgl : (cur.dropWhile (fun l => isBulletLine (strip l))).getLast? with
    | some y => rfl
    | none =>
      exfalso
      exact hd (List.getLast?_eq_none_iff.mp hgl)
  have hy_mem : cur.getLastD [] ∈
      cur.dropWhile (fun l => isBulletLine (strip l)) := by
    rw [List.getLastD_eq_getLast?, hlast2,
      List.getLast?_eq_getLast _ hd]
    simp [List.getLast_mem]
  have hfinal := List.all_eq_true.mp hbtp _ hy_mem
  rw [hlast] at hfinal
  exact absurd hfinal (by simp)

theorem btp_append_bullet {cur : List (List Char)} {l : List Char}
    (hbtp : bulletsThenPlains cur = true)
    (hempty_or_last : cur = [] ∨ isBulletLine (strip (cur.getLastD [])) = true)
    (hl : isBulletLine (strip l) = true) :
    bulletsThenPlains (cur ++ [l]) = true := by
  rcases hempty_or_last with rfl | hlast
  · simpa using bulletsThenPlains_singleton l
  · by_cases hne : cur = []
    · subst hne
      simpa using bulletsThenPlains_singleton l
    · have hall := all_bullet_of_btp_last cur hbtp hne hlast
      unfold bulletsThenPlains
      have : (cur ++ [l]).dropWhile (fun x => isBulletLine (strip x)) = [] := by
        rw [List.dropWhile_eq_nil_iff]
        intro x hx
        rcases List.mem_append.mp hx with hx | hx
        · exact hall x hx
        · simp only [List.mem_singleton] at hx
          subst hx
          exact hl
      rw [this]
      rfl

theorem btp_append_plain {cur : List (List Char)} {l : List Char}
    (hbtp : bulletsThenPlains cur = true)
    (hl : isBulletLine (strip l) = false) :
    bulletsThenPlains (cur ++ [l]) = true := by
  unfold bulletsThenPlains at *
  rw [List.dropWhile_append]
  by_cases hd : (cur.dropWhile (fun x => isBulletLine (strip x))).isEmpty
  · rw [if_pos hd]
    simp [List.dropWhile, hl]
  · rw [if_neg hd]
    rw [List.all_append]
    rw [hbtp]
    simp [hl]

theorem gbGo_cons (l : List Char) (rest cur : List (List Char)) :
    gbGo (l :: rest) cur =
      if (strip l).isEmpty then
        (if cur.isEmpty then [] else [List.intercalate ['\n'] cur]) ++ gbGo rest []
      else if headIsHash (strip l) then
        (if cur.isEmpty then [] else [List.intercalate ['\n'] cur]) ++
          strip l :: gbGo rest []
      else if isBulletLine (strip l) then
        if !cur.isEmpty && !isBulletLine (strip (cur.getLastD [])) then
          List.intercalate ['\n'] cur :: gbGo rest [l]
        else gbGo rest (cur ++ [l])
      else gbGo rest (cur ++ [l]) := rfl

theorem gbGo_structure :
    ∀ (lines : List (List Char)) (cur : List (List Char)),
      (∀ l ∈ lines, '\n' ∉ l) → (∀ l ∈ cur, '\n' ∉ l) →
      bulletsThenPlains cur = true →
      ∀ b ∈ gbGo lines cur,
        ∃ bls, b = List.intercalate ['\n'] bls ∧ (∀ l ∈ bls, '\n' ∉ l) ∧
          bulletsThenPlains bls = true := by
  intro lines
  induction lines with
  | nil =>
    intro cur _ hcur hbtp b hb
    unfold gbGo at hb
    by_cases hce : cur.isEmpty
    · rw [if_pos hce] at hb
      simp at hb
    · rw [if_neg hce] at hb
      simp only [List.mem_singleton] at hb
      exact ⟨cur, hb, hcur, hbtp⟩
  | cons l rest ih =>
    intro cur hlines hcur hbtp b hb
    have hl_nl : '\n' ∉ l := hlines l (by simp)
    have hrest : ∀ x ∈ rest, '\n' ∉ x := fun x hx => hlines x (by simp [hx])
    have hflush : ∀ b', b' ∈ (if cur.isEmpty then ([] : List (List Char))
        else [List.intercalate ['\n'] cur]) →
        ∃ bls, b' = List.intercalate ['\n'] bls ∧ (∀ x ∈ bls, '\n' ∉ x) ∧
          bulletsThenPlains bls = true := by
      intro b' hb'
      by_cases hce : cur.isEmpty
      · rw [if_pos hce] at hb'; simp at hb'
      · rw [if_neg hce] at hb'
        simp only [List.mem_singleton] at hb'
        exact ⟨cur, hb', hcur, hbtp⟩
    rw [gbGo_cons] at hb
    by_cases h1 : (strip l).isEmpty
    · rw [if_pos h1] at hb
      rcases List.mem_append.mp hb with hb | hb
      · exact hflush b hb
      · exact ih [] hrest (by simp) rfl b hb
    · rw [if_neg h1] at hb
      by_cases h2 : headIsHash (strip l)
      · rw [if_pos h2] at hb
        rcases List.mem_append.mp hb with hb | hb
        · exact hflush b hb
        · rcases List.mem_cons.mp hb with rfl | hb
          · refine ⟨[strip l], by simp [List.intercalate], ?_,
              bulletsThenPlains_singleton _⟩
            intro x hx
            simp only [List.mem_singleton] at hx
            subst hx
            intro hmem
            exact hl_nl (mem_of_mem_strip hmem)
          · exact ih [] hrest (by simp) rfl b hb
      · rw [if_neg h2] at hb
        have hsingle : ∀ x ∈ [l], '\n' ∉ x := by
          intro x hx
          simp only [List.mem_singleton] at hx
          subst hx
          exact hl_nl
        have happend : ∀ x ∈ cur ++ [l], '\n' ∉ x := by
          intro x hx
          rcases List.mem_append.mp hx with hx | hx
          · exact hcur x hx
          · exact hsingle x hx
        by_cases h3 : isBulletLine (strip l)
        · rw [if_pos h3] at hb
          by_cases h4 : (!cur.isEmpty && !isBulletLine (strip (cur.getLastD []))) = true
          · rw [if_pos h4] at hb
            rcases List.mem_cons.mp hb with rfl | hb
            · exact ⟨cur, rfl, hcur, hbtp⟩
            · exact ih [l] hrest hsingle (bulletsThenPlains_singleton l) b hb
          · rw [if_neg h4] at hb
            have hcases : cur = [] ∨ isBulletLine (strip (cur.getLastD [])) = true := by
              simp only [Bool.and_eq_true, Bool.not_eq_true'] at h4
              by_cases hce : cur = []
              · exact Or.inl hce
              · right
                by_contra hbl
                have hbl' : isBulletLine (strip (cur.getLastD [])) = false := by
                  revert hbl; cases isBulletLine (strip (cur.getLastD [])) <;> simp
                apply h4
                constructor
                · simp [List.isEmpty_iff, hce]
                · exact hbl'
            exact ih (cur ++ [l]) hrest happend
              (btp_append_bullet hbtp hcases h3) b hb
        · rw [if_neg h3] at hb
          have h3' : isBulletLine (strip l) = false := by
            revert h3; cases isBulletLine (strip l) <;> simp
          exact ih (cur ++ [l]) hrest happend (btp_append_plain hbtp h3') b hb

/-- Claim C4 (amended): a plain-text line does not flush an open bullet-run
(the source appends it unconditionally), so a block may mix bullet lines with
plain lines; what does hold is that within every emitted block all bullet
lines precede all plain lines — once a non-bullet line occurs, no later line
of the block is a bullet line.  (The claim as stated is refuted by
`C4_counterexample`.) -/
theorem C4_theorem :
    ∀ (text : List Char), ∀ b ∈ gbGo (splitLines (strip text)) [],
      ∃ bls, b = List.intercalate ['\n'] bls ∧ (∀ l ∈ bls, '\n' ∉ l) ∧
        bulletsThenPlains bls = true := by
  intro text b hb
  exact gbGo_structure (splitLines (strip text)) []
    (splitLines_no_nl (strip text)) (by simp) rfl b hb

/-- Witness for C4 (amended), instantiated on the counterexample input
`"- a\nx"`: its single emitted block decomposes into newline-free lines with
all bullet lines before all plain lines. -/
theorem C4_witness :
    ∃ bls, strOf "- a\nx" = List.intercalate ['\n'] bls ∧
      (∀ l ∈ bls, '\n' ∉ l) ∧ bulletsThenPlains bls = true :=
  C4_theorem (strOf "- a\nx") (strOf "- a\nx") (by decide)

/-- Claim C9 fails as stated: on `"![]($9$) ![]($![]($1$)2$)"` the single
left-to-right pass of the global substitution removes the inner marker of the
second segment, and the surrounding text joins up into the fresh well-formed
marker `![]($2$)`, which survives in the returned `text` field. -/
theorem C9_counterexample :
    ¬ (∀ seg ∈ get_script_segments (strOf "![]($9$) ![]($![]($1$)2$)") 150,
        countMarkers seg.text = 0) := by decide

/-! ### Claim C9 (amended): marker counting through the classifier -/

theorem classify_image_index (raw : List Char) :
    (classify raw).image_index = findMarkerVal raw := by
  unfold classify
  cases h : findMarkerVal raw <;> simp

theorem findMarkerVal_none_cm {s : List Char} (h : findMarkerVal s = none) :
    countMarkers s = 0 := by
  induction s with
  | nil => rfl
  | cons c t ih =>
    cases hm : markerHead (c :: t) with
    | some pr =>
      obtain ⟨d, r⟩ := pr
      simp [findMarkerVal, hm] at h
    | none =>
      simp only [findMarkerVal, hm] at h
      rw [countMarkers_cons_none hm]
      exact ih h

theorem cm_marker_append {d : List Char} (z : List Char) (hne : d ≠ [])
    (hd : ∀ c ∈ d, Char.isDigit c = true) :
    countMarkers (mkMarker d ++ z) = 1 + countMarkers z := by
  have hm : markerHead (mkMarker d ++ z) = some (d, z) := markerHead_mk z hne hd
  rw [mkMarker_append_eq] at hm ⊢
  exact countMarkers_cons_some hm

theorem collAux_nonWS_block : ∀ (m : List Char) (p : Bool) (r : List Char),
    m ≠ [] → (∀ c ∈ m, isWS c = false) →
    collAux p (m ++ r) = m ++ collAux false r := by
  intro m
  induction m with
  | nil => intro p r h _; exact absurd rfl h
  | cons a m' ih =>
    intro p r _ hm
    have ha : isWS a = false := hm a (by simp)
    cases m' with
    | nil => simp [collAux, ha]
    | cons b m'' =>
      rw [List.cons_append, collAux]
      rw [if_neg (by simp [ha])]
      rw [ih false r (by simp) (fun c hc => hm c (by simp [hc]))]
      simp

theorem collAux_false_nonWS_front : ∀ (t u v : List Char),
    (∀ a ∈ u, isWS a = false) → collAux false t = u ++ v →
    ∃ w, t = u ++ w := by
  intro t
  induction t with
  | nil =>
    intro u v _ h
    simp only [collAux] at h
    exact ⟨[], by
      have := (List.append_eq_nil.mp h.symm).1
      rw [this]; rfl⟩
  | cons b t' ih =>
    intro u v hu h
    cases u with
    | nil => exact ⟨b :: t', rfl⟩
    | cons a u' =>
      have ha : isWS a = false := hu a (by simp)
      cases hb : isWS b
      · rw [collAux, if_neg (by simp [hb])] at h
        have hba : b = a ∧ collAux false t' = u' ++ v := by
          constructor
          · exact (List.cons.injEq _ _ _ _ ▸ h).1
          · exact (List.cons.injEq _ _ _ _ ▸ h).2
        obtain ⟨rfl, h2⟩ := hba
        obtain ⟨w, hw⟩ := ih u' v (fun c hc => hu c (by simp [hc])) h2
        exact ⟨w, by rw [List.cons_append, hw]⟩
      · rw [collAux, if_pos (by simp [hb])] at h
        have : (' ' : Char) = a := (List.cons.injEq _ _ _ _ ▸ h).1
        rw [← this] at ha
        exact absurd ha (by decide)

theorem markerHead_cons_collapse_none {c : Char} {t : List Char}
    (hc : isWS c = false) (hm : markerHead (c :: t) = none) :
    markerHead (c :: collAux false t) = none := by
  cases hsome : markerHead (c :: collAux false t) with
  | none => rfl
  | some pr =>
    exfalso
    obtain ⟨d, r⟩ := pr
    obtain ⟨hshape, hne, hd⟩ := markerHead_some hsome
    rw [mkMarker_append_eq] at hshape
    have hc_eq : c = '!' ∧ collAux false t =
        '[' :: ']' :: '(' :: '$' :: (d ++ '$' :: ')' :: r) := by
      constructor
      · exact (List.cons.injEq _ _ _ _ ▸ hshape).1
      · exact (List.cons.injEq _ _ _ _ ▸ hshape).2
    obtain ⟨rfl, hcoll⟩ := hc_eq
    have hsplit : collAux false t =
        ('[' :: ']' :: '(' :: '$' :: (d ++ ['$', ')'])) ++ r := by
      rw [hcoll]
      simp
    have hnws : ∀ a ∈ ('[' :: ']' :: '(' :: '$' :: (d ++ ['$', ')'])), isWS a = false := by
      intro a hamem
      have : a ∈ mkMarker d := by
        simp only [mkMarker, List.mem_cons]
        simp only [List.mem_cons] at hamem
        tauto
      exact mkMarker_not_ws hd a this
    obtain ⟨w, hw⟩ := collAux_false_nonWS_front t _ r hnws hsplit
    have : markerHead ('!' :: t) = some (d, w) := by
      have harg : '!' :: t = mkMarker d ++ w := by
        rw [hw, mkMarker_append_eq]
        simp
      rw [harg]
      exact markerHead_mk w hne hd
    rw [this] at hm
    exact absurd hm (by simp)

theorem cm_collapse : ∀ n : Nat, ∀ (y : List Char) (p : Bool), y.length ≤ n →
    countMarkers (collAux p y) = countMarkers y := by
  intro n
  induction n with
  | zero =>
    intro y p hy
    have : y = [] := List.length_eq_zero.mp (Nat.le_zero.mp hy)
    subst this
    rfl
  | succ n ih =>
    intro y p hy
    cases hm : markerHead y with
    | some pr =>
      obtain ⟨d, r⟩ := pr
      obtain ⟨hshape, hne, hd⟩ := markerHead_some hm
      have hmnws := mkMarker_not_ws hd
      have hmne : mkMarker d ≠ [] := by simp [mkMarker]
      rw [hshape, collAux_nonWS_block (mkMarker d) p r hmne hmnws]
      rw [cm_marker_append _ hne hd, cm_marker_append _ hne hd]
      have hr : r.length ≤ n := by
        rw [hshape, List.length_append, mkMarker_length] at hy
        omega
      rw [ih r false hr]
    | none =>
      cases y with
      | nil => rfl
      | cons c t =>
        simp only [List.length_cons] at hy
        cases hc : isWS c
        · rw [show collAux p (c :: t) = c :: collAux false t by
            simp [collAux, hc]]
          rw [countMarkers_cons_none (markerHead_cons_collapse_none hc hm),
            countMarkers_cons_none hm]
          exact ih t false (by omega)
        · have hstep : countMarkers (collAux p (c :: t)) =
              countMarkers (collAux true t) := by
            cases p
            · rw [show collAux false (c :: t) = ' ' :: collAux true t by
                simp [collAux, hc]]
              exact countMarkers_cons_none (markerHead_ws_head (by decide))
            · rw [show collAux true (c :: t) = collAux true t by
                simp [collAux, hc]]
          rw [hstep, countMarkers_cons_none (markerHead_ws_head hc)]
          exact ih t true (by omega)

theorem cm_classify_text (x : List Char) :
    countMarkers (strip (collapseWS (strip x))) = countMarkers x := by
  unfold collapseWS
  rw [countMarkers_strip, cm_collapse (strip x).length (strip x) false (le_refl _),
    countMarkers_strip]

/-- Claim C9 (amended): for every input, every returned segment's
`image_index` is the value of the first (leftmost) marker match of its
`raw_text` (the substitution is global but the index comes from the first
match only), and the `text` field has zero marker occurrences whenever the
single-pass global removal itself leaves none — the caveat forced by
`C9_counterexample`, where removal juxtaposes a new well-formed marker. -/
theorem C9_theorem :
    ∀ (text : List Char) (mw : Nat) (seg : ScriptSegment),
      seg ∈ get_script_segments text mw →
      seg.image_index = findMarkerVal seg.raw_text ∧
        (countMarkers (removeMarkers seg.raw_text) = 0 →
          countMarkers seg.text = 0) := by
  intro text mw seg hmem
  obtain ⟨raw, _, rfl⟩ := mem_gss hmem
  rw [classify_raw_text]
  refine ⟨classify_image_index raw, ?_⟩
  intro hrm
  unfold classify
  cases hv : findMarkerVal raw with
  | some n =>
    simp only
    rw [cm_classify_text]
    exact hrm
  | none =>
    simp only
    rw [cm_classify_text]
    exact findMarkerVal_none_cm hv

/-- Witness for C9 on `"a ![]($1$) b ![]($2$) c"`: the first segment's index
is the first match of its raw text, and its text is marker-free. -/
theorem C9_witness :
    (ScriptSegment.mk (strOf "a") (some 1) true
        (strOf "a ![]($1$)")).image_index =
      findMarkerVal (ScriptSegment.mk (strOf "a") (some 1) true
        (strOf "a ![]($1$)")).raw_text ∧
      (countMarkers (removeMarkers (ScriptSegment.mk (strOf "a") (some 1) true
          (strOf "a ![]($1$)")).raw_text) = 0 →
        countMarkers (ScriptSegment.mk (strOf "a") (some 1) true
          (strOf "a ![]($1$)")).text = 0) :=
  C9_theorem (strOf "a ![]($1$) b ![]($2$) c") 150 _ (by decide)

/-! ### Claim C3: budget respect, step 1 — recombined sentences have no
internal sentence break -/

theorem isPunct3_not_ws {c : Char} (h : isPunct3 c = true) : isWS c = false := by
  simp only [isPunct3, Bool.or_eq_true, decide_eq_true_eq] at h
  rcases h with (rfl | rfl) | rfl <;> rfl

theorem sbOK_of_not_ws {a c : Char} (h : isWS c = false) : sbOK a c = true := by
  simp [sbOK, h]

theorem isSubstrPunct_singleton {c : Char} (h : isPunct3 c = true) :
    isSubstrPunct [c] = true := by
  simp only [isPunct3, Bool.or_eq_true, decide_eq_true_eq] at h
  rcases h with (rfl | rfl) | rfl <;> rfl

theorem noSB_nil : noSB [] := List.chain'_nil

theorem noSB_singleton (c : Char) : noSB [c] := List.chain'_singleton c

theorem noSB_snoc {l : List Char} {c : Char} (h : noSB l)
    (hlink : ∀ x ∈ l.getLast?, sbOK x c = true) : noSB (l ++ [c]) := by
  unfold noSB
  rw [List.chain'_append]
  refine ⟨h, List.chain'_singleton c, ?_⟩
  intro x hx y hy
  simp only [List.head?_cons, Option.mem_def, Option.some_inj] at hy
  subst hy
  exact hlink x hx

theorem rssF_cons (f : Nat) (acc : List Char) (c : Char) (t : List Char) :
    rssF (f + 1) acc (c :: t) =
      if isPunct3 c && headWS t then
        acc.reverse :: [c] :: rssF f [] (t.dropWhile isWS)
      else rssF f (c :: acc) t := rfl

theorem rssF_nil (f : Nat) (acc : List Char) : rssF f acc [] = [acc.reverse] := by
  cases f <;> rfl

theorem recombine_cons_cons (a b : List Char) (rest : List (List Char)) :
    recombine (a :: b :: rest) =
      if isSubstrPunct b then (a ++ b) :: recombine rest
      else if (strip a).isEmpty then recombine (b :: rest)
      else a :: recombine (b :: rest) := rfl

theorem recombine_rssF_noSB : ∀ f : Nat, ∀ (s acc : List Char), s.length ≤ f →
    noSB acc.reverse → accOK acc s →
    ∀ x ∈ recombine (rssF f acc s), noSB x := by
  intro f
  induction f with
  | zero =>
    intro s acc hs hacc _ x hx
    have : s = [] := List.length_eq_zero.mp (Nat.le_zero.mp hs)
    subst this
    rw [rssF_nil] at hx
    unfold recombine at hx
    by_cases he : (strip acc.reverse).isEmpty
    · rw [if_pos he] at hx; simp at hx
    · rw [if_neg he] at hx
      simp only [List.mem_singleton] at hx
      subst hx
      exact hacc
  | succ f ih =>
    intro s acc hs hacc haccok x hx
    cases s with
    | nil =>
      rw [rssF_nil] at hx
      unfold recombine at hx
      by_cases he : (strip acc.reverse).isEmpty
      · rw [if_pos he] at hx; simp at hx
      · rw [if_neg he] at hx
        simp only [List.mem_singleton] at hx
        subst hx
        exact hacc
    | cons c t =>
      simp only [List.length_cons] at hs
      rw [rssF_cons] at hx
      have hlink : ∀ a ∈ acc.reverse.getLast?, sbOK a c = true := by
        intro a ha
        rw [List.getLast?_reverse] at ha
        cases acc with
        | nil => simp at ha
        | cons a0 acc' =>
          simp only [List.head?_cons, Option.mem_def, Option.some_inj] at ha
          subst ha
          exact haccok
      by_cases hcut : (isPunct3 c && headWS t) = true
      · rw [if_pos hcut] at hx
        simp only [Bool.and_eq_true] at hcut
        obtain ⟨hp, _⟩ := hcut
        have hsub : isSubstrPunct [c] = true := isSubstrPunct_singleton hp
        rw [recombine_cons_cons, if_pos hsub] at hx
        rcases List.mem_cons.mp hx with rfl | hx
        · exact noSB_snoc hacc (fun a _ => sbOK_of_not_ws (isPunct3_not_ws hp))
        · have hd : (t.dropWhile isWS).length ≤ f := by
            have := (List.dropWhile_sublist (l := t) isWS).length_le
            omega
          exact ih (t.dropWhile isWS) [] hd noSB_nil trivial x hx
      · rw [if_neg hcut] at hx
        have hacc' : noSB (c :: acc).reverse := by
          rw [List.reverse_cons]
          exact noSB_snoc hacc hlink
        have haccok' : accOK (c :: acc) t := by
          cases t with
          | nil => trivial
          | cons b t' =>
            show sbOK c b = true
            have : (isPunct3 c && headWS (b :: t')) = false := by
              revert hcut; cases (isPunct3 c && headWS (b :: t')) <;> simp
            simp only [headWS] at this
            simp only [sbOK, this, Bool.not_false]
        exact ih t (c :: acc) (by omega) hacc' haccok' x hx

/-! ### Claim C3, step 2 — greedy packers respect the budget or emit a
single (possibly oversized) sentence -/

theorem sltGo_budget (mw : Nat) : ∀ (sents : List (List Char)) (cur : List Char)
    (cwc : Nat), wc cur ≤ cwc → cwc ≤ mw → (∀ s ∈ sents, noSB s) →
    ∀ x ∈ sltGo mw sents cur cwc, wc x ≤ mw ∨ noSB x := by
  intro sents
  induction sents with
  | nil =>
    intro cur cwc hcur hcwc _ x hx
    unfold sltGo at hx
    by_cases he : (strip cur).isEmpty
    · rw [if_pos he] at hx; simp at hx
    · rw [if_neg he] at hx
      simp only [List.mem_singleton] at hx
      subst hx
      left
      rw [wc_strip]
      omega
  | cons a rest ih =>
    intro cur cwc hcur hcwc hsents x hx
    have hna : noSB a := hsents a (by simp)
    have hrest : ∀ s ∈ rest, noSB s := fun s hs => hsents s (by simp [hs])
    rw [sltGo_cons] at hx
    have hflush : ∀ y, y ∈ (if cur.isEmpty then ([] : List (List Char))
        else [strip cur]) → wc y ≤ mw ∨ noSB y := by
      intro y hy
      by_cases hce : cur.isEmpty
      · rw [if_pos hce] at hy; simp at hy
      · rw [if_neg hce] at hy
        simp only [List.mem_singleton] at hy
        subst hy
        left
        rw [wc_strip]
        omega
    by_cases h1 : (strip a).isEmpty
    · rw [if_pos h1] at hx
      exact ih cur cwc hcur hcwc hrest x hx
    · rw [if_neg h1] at hx
      by_cases h2 : mw < wc (strip a)
      · rw [if_pos h2] at hx
        rcases List.mem_append.mp hx with hx | hx
        · exact hflush x hx
        · rcases List.mem_cons.mp hx with rfl | hx
          · exact Or.inr (noSB_strip hna)
          · exact ih [] 0 (by simp [wc]; rfl) (by omega) hrest x hx
      · rw [if_neg h2] at hx
        by_cases h3 : mw < cwc + wc (strip a)
        · rw [if_pos h3] at hx
          rcases List.mem_append.mp hx with hx | hx
          · exact hflush x hx
          · exact ih (strip a) (wc (strip a)) (le_refl _) (by omega) hrest x hx
        · rw [if_neg h3] at hx
          refine ih _ (cwc + wc (strip a)) ?_ (by omega) hrest x hx
          by_cases hce : cur.isEmpty
          · rw [if_pos hce]
            omega
          · rw [if_neg hce]
            rw [wc_sep_append (by rfl)]
            omega

theorem split_long_text_budget (text : List Char) (mw : Nat) :
    ∀ x ∈ split_long_text text mw, wc x ≤ mw ∨ noSB x := by
  intro x hx
  unfold split_long_text at hx
  refine sltGo_budget mw _ [] 0 (by simp [wc]; rfl) (by omega) ?_ x hx
  intro s hs
  exact recombine_rssF_noSB text.length text [] (le_refl _) noSB_nil trivial s
    (by exact hs)

theorem bpGo_cons (mw : Nat) (l : List Char) (rest : List (List Char))
    (cur : List Char) (cwc : Nat) :
    bpGo mw (l :: rest) cur cwc =
      if mw < wc l then
        (if cur.isEmpty then [] else [strip cur]) ++
          split_long_text l mw ++ bpGo mw rest [] 0
      else if mw < cwc + wc l then
        (if cur.isEmpty then [] else [strip cur]) ++ bpGo mw rest l (wc l)
      else
        bpGo mw rest (if cur.isEmpty then l else cur ++ '\n' :: l)
          (cwc + wc l) := rfl

theorem bpGo_budget (mw : Nat) : ∀ (lines : List (List Char)) (cur : List Char)
    (cwc : Nat), wc cur ≤ cwc → cwc ≤ mw →
    ∀ x ∈ bpGo mw lines cur cwc, wc x ≤ mw ∨ noSB x := by
  intro lines
  induction lines with
  | nil =>
    intro cur cwc hcur hcwc x hx
    unfold bpGo at hx
    by_cases he : (strip cur).isEmpty
    · rw [if_pos he] at hx; simp at hx
    · rw [if_neg he] at hx
      simp only [List.mem_singleton] at hx
      subst hx
      left
      rw [wc_strip]
      omega
  | cons l rest ih =>
    intro cur cwc hcur hcwc x hx
    rw [bpGo_cons] at hx
    have hflush : ∀ y, y ∈ (if cur.isEmpty then ([] : List (List Char))
        else [strip cur]) → wc y ≤ mw ∨ noSB y := by
      intro y hy
      by_cases hce : cur.isEmpty
      · rw [if_pos hce] at hy; simp at hy
      · rw [if_neg hce] at hy
        simp only [List.mem_singleton] at hy
        subst hy
        left
        rw [wc_strip]
        omega
    by_cases h1 : mw < wc l
    · rw [if_pos h1] at hx
      rcases List.mem_append.mp hx with hx | hx
      · rcases List.mem_append.mp hx with hx | hx
        · exact hflush x hx
        · exact split_long_text_budget l mw x hx
      · exact ih [] 0 (by simp [wc]; rfl) (by omega) x hx
    · rw [if_neg h1] at hx
      by_cases h2 : mw < cwc + wc l
      · rw [if_pos h2] at hx
        rcases List.mem_append.mp hx with hx | hx
        · exact hflush x hx
        · exact ih l (wc l) (le_refl _) (by omega) x hx
      · rw [if_neg h2] at hx
        refine ih _ (cwc + wc l) ?_ (by omega) x hx
        by_cases hce : cur.isEmpty
        · rw [if_pos hce]
          omega
        · rw [if_neg hce]
          rw [wc_sep_append (by rfl)]
          omega

theorem processBlock_budget (mw : Nat) (b : List Char) :
    ∀ x ∈ processBlock mw b, wc x ≤ mw ∨ noSB x := by
  intro x hx
  unfold processBlock at hx
  by_cases h1 : (strip b).isEmpty
  · rw [if_pos h1] at hx; simp at hx
  · rw [if_neg h1] at hx
    by_cases h2 : wc (strip b) ≤ mw
    · rw [if_pos h2] at hx
      simp only [List.mem_singleton] at hx
      subst hx
      exact Or.inl h2
    · rw [if_neg h2] at hx
      by_cases h3 : (splitLines (strip b)).any (fun l => isBulletLine (strip l))
      · rw [if_pos h3] at hx
        exact bpGo_budget mw _ [] 0 (by simp [wc]; rfl) (by omega) x hx
      · rw [if_neg h3] at hx
        exact split_long_text_budget _ mw x hx

theorem relocateSegment_budget (mw : Nat) (s : List Char)
    (hs : wc s ≤ mw ∨ noSB s) :
    ∀ x ∈ relocateSegment s, wc x ≤ mw ∨ noSB x := by
  intro x hx
  unfold relocateSegment at hx
  cases hm : findMarkerEnd s with
  | none =>
    rw [hm] at hx
    simp only [List.mem_singleton] at hx
    subst hx
    exact hs
  | some e =>
    rw [hm] at hx
    dsimp only at hx
    have hxcases : x = strip (s.take e) ∨ x = strip (s.drop e) := by
      rcases List.mem_append.mp hx with hx | hx
      · by_cases hb : (strip (s.take e)).isEmpty
        · rw [if_pos hb] at hx; simp at hx
        · rw [if_neg hb] at hx
          simp only [List.mem_singleton] at hx
          exact Or.inl hx
      · by_cases hb : (strip (s.drop e)).isEmpty
        · rw [if_pos hb] at hx; simp at hx
        · rw [if_neg hb] at hx
          simp only [List.mem_singleton] at hx
          exact Or.inr hx
    rcases hs with hwc | hnosb
    · left
      rcases hxcases with rfl | rfl
      · rw [wc_strip]
        exact le_trans (wc_take_le e s) hwc
      · rw [wc_strip]
        exact le_trans (wc_drop_le e s) hwc
    · right
      rcases hxcases with rfl | rfl
      · exact noSB_strip (noSB_take e hnosb)
      · exact noSB_strip (noSB_drop e hnosb)

/-! ### Claim C3, final steps — word count never grows through the
classifier, and assembly -/

theorem wcA_le_false (b : Bool) (y : List Char) : wcA b y ≤ wcA false y := by
  cases b
  · exact le_refl _
  · exact wcA_true_le_false y

theorem inW_nonWS_block : ∀ (m : List Char) (b : Bool), m ≠ [] →
    (∀ c ∈ m, isWS c = false) → inW b m = true := by
  intro m
  induction m with
  | nil => intro b h _; exact absurd rfl h
  | cons c t ih =>
    intro b _ hm
    have hc : isWS c = false := hm c (by simp)
    cases t with
    | nil => simp [inW, hc]
    | cons d t' =>
      rw [show inW b (c :: d :: t') = inW (!isWS c) (d :: t') from rfl]
      exact ih _ (by simp) (fun x hx => hm x (by simp [hx]))

theorem wc_collapse_le : ∀ (y : List Char) (p b : Bool),
    wcA b (collAux p y) ≤ wcA b y := by
  intro y
  induction y with
  | nil => intro p b; exact le_refl _
  | cons c t ih =>
    intro p b
    cases hc : isWS c
    · rw [show collAux p (c :: t) = c :: collAux false t by simp [collAux, hc]]
      have h1 : wcA b (c :: collAux false t) =
          (if b then 0 else 1) + wcA true (collAux false t) := by
        simp [wcA, hc]
      have h2 : wcA b (c :: t) = (if b then 0 else 1) + wcA true t := by
        simp [wcA, hc]
      rw [h1, h2]
      have := ih false true
      omega
    · cases p
      · rw [show collAux false (c :: t) = ' ' :: collAux true t by
          simp [collAux, hc]]
        have h1 : wcA b (' ' :: collAux true t) = wcA false (collAux true t) := by
          simp [wcA, show isWS ' ' = true from rfl]
        have h2 : wcA b (c :: t) = wcA false t := by simp [wcA, hc]
        rw [h1, h2]
        exact le_trans (ih true false) (le_refl _)
      · rw [show collAux true (c :: t) = collAux true t by simp [collAux, hc]]
        have h2 : wcA b (c :: t) = wcA false t := by simp [wcA, hc]
        rw [h2]
        exact le_trans (ih true b) (wcA_le_false b t)

theorem wc_rm_le : ∀ n : Nat, ∀ (s : List Char) (b : Bool), s.length ≤ n →
    wcA b (removeMarkers s) ≤ wcA b s := by
  intro n
  induction n with
  | zero =>
    intro s b hs
    have : s = [] := List.length_eq_zero.mp (Nat.le_zero.mp hs)
    subst this
    exact le_refl _
  | succ n ih =>
    intro s b hs
    cases s with
    | nil => exact le_refl _
    | cons c t =>
      simp only [List.length_cons] at hs
      cases hm : markerHead (c :: t) with
      | some pr =>
        obtain ⟨d, r⟩ := pr
        obtain ⟨hshape, hne, hd⟩ := markerHead_some hm
        rw [removeMarkers_cons_some hm]
        have hrlen : r.length ≤ n := by
          have := markerHead_rest_lt hm
          simp only [List.length_cons] at this
          omega
        have hih := ih r b hrlen
        have hm_ne : mkMarker d ≠ [] := by simp [mkMarker]
        have hm_nws := mkMarker_not_ws hd
        have hsplit : wcA b (c :: t) = wcA b (mkMarker d) + wcA true r := by
          rw [hshape, wcA_append, inW_nonWS_block _ b hm_ne hm_nws]
        have hlast : wcA b r ≤ wcA b (mkMarker d) + wcA true r := by
          cases b
          · have h1 : 1 ≤ wcA false (mkMarker d) :=
              wcA_pos_of_inW (inW_nonWS_block _ false hm_ne hm_nws)
            have h2 := wcA_false_le_true_add r
            omega
          · have := wcA_true_le_false r
            have h3 : wcA true r ≤ wcA true (mkMarker d) + wcA true r := by omega
            exact le_trans (le_refl _) h3
        rw [hsplit]
        exact le_trans hih hlast
      | none =>
        rw [removeMarkers_cons_none hm]
        cases hc : isWS c
        · have h1 : wcA b (c :: removeMarkers t) =
              (if b then 0 else 1) + wcA true (removeMarkers t) := by
            simp [wcA, hc]
          have h2 : wcA b (c :: t) = (if b then 0 else 1) + wcA true t := by
            simp [wcA, hc]
          rw [h1, h2]
          have := ih t true (by omega)
          omega
        · have h1 : wcA b (c :: removeMarkers t) =
              wcA false (removeMarkers t) := by simp [wcA, hc]
          have h2 : wcA b (c :: t) = wcA false t := by simp [wcA, hc]
          rw [h1, h2]
          exact ih t false (by omega)

theorem wc_norm_le (x : List Char) :
    wc (strip (collapseWS (strip x))) ≤ wc x := by
  rw [wc_strip]
  unfold collapseWS
  calc wc (collAux false (strip x)) ≤ wc (strip x) :=
        wc_collapse_le (strip x) false false
    _ = wc x := wc_strip x

theorem wc_classify_text_le (raw : List Char) :
    wc (classify raw).text ≤ wc raw := by
  unfold classify
  cases h : findMarkerVal raw with
  | some n =>
    simp only
    calc wc (strip (collapseWS (strip (removeMarkers raw)))) ≤
          wc (removeMarkers raw) := wc_norm_le _
      _ ≤ wc raw := wc_rm_le raw.length raw false (le_refl _)
  | none =>
    simp only
    exact wc_norm_le raw

theorem mem_foldr_append {α β : Type} (f : α → List β) (x : β) :
    ∀ l : List α, x ∈ l.foldr (fun b acc => f b ++ acc) [] ↔ ∃ b ∈ l, x ∈ f b := by
  intro l
  induction l with
  | nil => simp
  | cons a t ih =>
    simp only [List.foldr_cons, List.mem_append, ih, List.mem_cons]
    constructor
    · rintro (hx | ⟨b, hb, hxb⟩)
      · exact ⟨a, Or.inl rfl, hx⟩
      · exact ⟨b, Or.inr hb, hxb⟩
    · rintro ⟨b, (rfl | hb), hxb⟩
      · exact Or.inl hxb
      · exact Or.inr ⟨b, hb, hxb⟩

theorem split_markdown_budget (text : List Char) (mw : Nat) :
    ∀ x ∈ split_markdown_for_video_with_image_split text mw,
      wc x ≤ mw ∨ noSB x := by
  intro x hx
  unfold split_markdown_for_video_with_image_split at hx
  rw [mem_foldr_append relocateSegment x] at hx
  obtain ⟨s, hs, hxs⟩ := hx
  rw [mem_foldr_append (processBlock mw) s] at hs
  obtain ⟨b, _, hsb⟩ := hs
  exact relocateSegment_budget mw s (processBlock_budget mw b s hsb) x hxs

/-- Claim C3: budget respect.  For every input and budget, a returned segment
whose `text` exceeds the word budget can only be (a remnant of) a single
atomic unit: its `raw_text` contains no internal sentence boundary
(`[.!?]` followed by whitespace), i.e. it is one unsplittable sentence.
Contrapositively, every segment not formed from a single atomic unit has
`wc text ≤ maxWords`. -/
theorem C3_theorem :
    ∀ (text : List Char) (mw : Nat) (seg : ScriptSegment),
      seg ∈ get_script_segments text mw → mw < wc seg.text →
      noSB seg.raw_text := by
  intro text mw seg hmem hover
  obtain ⟨raw, hraw, rfl⟩ := mem_gss hmem
  rw [classify_raw_text]
  have hle := wc_classify_text_le raw
  rcases split_markdown_budget text mw raw hraw with h | h
  · omega
  · exact h

/-- Witness for C3 on the 5-word no-punctuation input with budget 2: the
oversized returned segment's raw text is a single sentence. -/
theorem C3_witness : noSB (strOf "a b c d e") :=
  C3_theorem (strOf "a b c d e") 2
    (ScriptSegment.mk (strOf "a b c d e") none false (strOf "a b c d e"))
    (by decide) (by decide)

/-! ### Claim C1 (amended): the non-whitespace character stream is preserved -/

theorem dws_cons (c : Char) (t : List Char) :
    dws (c :: t) = (if isWS c then [] else [c]) ++ dws t := by
  unfold dws
  rw [List.filter_cons]
  cases hc : isWS c <;> simp [hc]

theorem dws_flatten (l : List (List Char)) :
    dws (List.flatten l) = (l.map dws).flatten := by
  unfold dws
  exact List.filter_flatten _ l

theorem dws_dropWhileWS (t : List Char) : dws (t.dropWhile isWS) = dws t := by
  conv_rhs => rw [← List.takeWhile_append_dropWhile (p := isWS) (l := t)]
  rw [dws_append, dws_allWS (fun c hc => List.mem_takeWhile_imp hc)]
  rfl

theorem dws_splitLines : ∀ s : List Char,
    ((splitLines s).map dws).flatten = dws s := by
  intro s
  induction s with
  | nil => rfl
  | cons c t ih =>
    by_cases hc : c = '\n'
    · rw [splitLines, if_pos hc]
      subst hc
      rw [List.map_cons, List.flatten_cons, ih, dws_cons]
      rfl
    · rw [splitLines, if_neg hc]
      cases hsl : splitLines t with
      | nil =>
        exfalso
        have : ∀ u : List Char, splitLines u ≠ [] := by
          intro u
          cases u with
          | nil => simp [splitLines]
          | cons a b =>
            unfold splitLines
            by_cases ha : a = '\n'
            · rw [if_pos ha]; simp
            · rw [if_neg ha]
              cases splitLines b <;> simp
        exact this t hsl
      | cons l ls =>
        rw [hsl] at ih
        rw [List.map_cons, List.flatten_cons, dws_cons, dws_cons]
        rw [List.map_cons, List.flatten_cons] at ih
        rw [← ih]
        simp

theorem intercalate_nl_pair (x y : List Char) (t : List (List Char)) :
    List.intercalate ['\n'] (x :: y :: t) =
      x ++ '\n' :: List.intercalate ['\n'] (y :: t) := by
  simp [List.intercalate, List.intersperse]

theorem dws_intercalate_nl : ∀ cur : List (List Char),
    dws (List.intercalate ['\n'] cur) = (cur.map dws).flatten := by
  intro cur
  induction cur with
  | nil => rfl
  | cons x t ih =>
    cases t with
    | nil => simp [List.intercalate]
    | cons y t' =>
      rw [intercalate_nl_pair, dws_append, dws_cons, ih]
      simp [show isWS '\n' = true from rfl]

theorem gbGo_dws : ∀ (lines cur : List (List Char)),
    ((gbGo lines cur).map dws).flatten =
      (cur.map dws).flatten ++ (lines.map dws).flatten := by
  intro lines
  induction lines with
  | nil =>
    intro cur
    unfold gbGo
    by_cases hce : cur.isEmpty
    · rw [if_pos hce]
      rw [List.isEmpty_iff.mp hce]
      rfl
    · rw [if_neg hce]
      simp [dws_intercalate_nl]
  | cons l rest ih =>
    intro cur
    rw [gbGo_cons]
    have hflush : (((if cur.isEmpty then ([] : List (List Char))
        else [List.intercalate ['\n'] cur])).map dws).flatten =
        (cur.map dws).flatten := by
      by_cases hce : cur.isEmpty
      · rw [if_pos hce, List.isEmpty_iff.mp hce]
      · rw [if_neg hce]
        simp [dws_intercalate_nl]
    by_cases h1 : (strip l).isEmpty
    · rw [if_pos h1]
      have hl : dws l = [] := by
        rw [← dws_strip, List.isEmpty_iff.mp h1]
        rfl
      rw [List.map_append, List.flatten_append, hflush, ih []]
      simp [hl]
    · rw [if_neg h1]
      by_cases h2 : headIsHash (strip l)
      · rw [if_pos h2]
        rw [List.map_append, List.flatten_append, hflush]
        rw [List.map_cons, List.flatten_cons, ih [], dws_strip]
        simp
      · rw [if_neg h2]
        by_cases h3 : isBulletLine (strip l)
        · rw [if_pos h3]
          by_cases h4 : (!cur.isEmpty && !isBulletLine (strip (cur.getLastD []))) = true
          · rw [if_pos h4]
            rw [List.map_cons, List.flatten_cons, ih [l], dws_intercalate_nl]
            simp
          · rw [if_neg h4]
            rw [ih (cur ++ [l])]
            simp
        · rw [if_neg h3]
          rw [ih (cur ++ [l])]
          simp

theorem rssF_dws : ∀ f : Nat, ∀ (s acc : List Char), s.length ≤ f →
    ((rssF f acc s).map dws).flatten = dws acc.reverse ++ dws s := by
  intro f
  induction f with
  | zero =>
    intro s acc hs
    have : s = [] := List.length_eq_zero.mp (Nat.le_zero.mp hs)
    subst this
    rw [rssF_nil]
    simp [dws]
  | succ f ih =>
    intro s acc hs
    cases s with
    | nil =>
      rw [rssF_nil]
      simp [dws]
    | cons c t =>
      simp only [List.length_cons] at hs
      rw [rssF_cons]
      by_cases hcut : (isPunct3 c && headWS t) = true
      · rw [if_pos hcut]
        simp only [Bool.and_eq_true] at hcut
        obtain ⟨hp, _⟩ := hcut
        have hcnws : isWS c = false := isPunct3_not_ws hp
        have hd : (t.dropWhile isWS).length ≤ f := by
          have := (List.dropWhile_sublist (l := t) isWS).length_le
          omega
        rw [List.map_cons, List.flatten_cons, List.map_cons, List.flatten_cons,
          ih (t.dropWhile isWS) [] hd]
        rw [dws_dropWhileWS t, dws_cons, dws_cons, hcnws]
        simp [dws]
      · rw [if_neg hcut]
        rw [ih t (c :: acc) (by omega)]
        rw [List.reverse_cons, dws_append, dws_cons, dws_cons]
        simp [dws]

theorem recombine_dws : ∀ n : Nat, ∀ ps : List (List Char), ps.length ≤ n →
    ((recombine ps).map dws).flatten = (ps.map dws).flatten := by
  intro n
  induction n with
  | zero =>
    intro ps hps
    have : ps = [] := List.length_eq_zero.mp (Nat.le_zero.mp hps)
    subst this
    rfl
  | succ n ih =>
    intro ps hps
    match ps with
    | [] => rfl
    | [a] =>
      show ((if (strip a).isEmpty then ([] : List (List Char)) else [a]).map dws).flatten = _
      by_cases he : (strip a).isEmpty
      · rw [if_pos he]
        have : dws a = [] := by
          rw [← dws_strip, List.isEmpty_iff.mp he]
          rfl
        simp [this]
      · rw [if_neg he]
    | a :: b :: rest =>
      have hps' : rest.length + 2 ≤ n + 1 := by simpa using hps
      rw [recombine_cons_cons]
      by_cases h1 : isSubstrPunct b
      · rw [if_pos h1]
        rw [List.map_cons, List.flatten_cons, ih rest (by omega), dws_append]
        simp
      · rw [if_neg h1]
        by_cases h2 : (strip a).isEmpty
        · rw [if_pos h2]
          have ha : dws a = [] := by
            rw [← dws_strip, List.isEmpty_iff.mp h2]
            rfl
          rw [ih (b :: rest) (by simp only [List.length_cons]; omega)]
          simp [ha]
        · rw [if_neg h2]
          rw [List.map_cons, List.flatten_cons,
            ih (b :: rest) (by simp only [List.length_cons]; omega)]
          simp

theorem sltGo_dws (mw : Nat) : ∀ (sents : List (List Char)) (cur : List Char)
    (cwc : Nat),
    ((sltGo mw sents cur cwc).map dws).flatten =
      dws cur ++ (sents.map dws).flatten := by
  intro sents
  induction sents with
  | nil =>
    intro cur cwc
    unfold sltGo
    by_cases he : (strip cur).isEmpty
    · rw [if_pos he]
      have : dws cur = [] := by
        rw [← dws_strip, List.isEmpty_iff.mp he]
        rfl
      simp [this]
    · rw [if_neg he]
      simp [dws_strip]
  | cons a rest ih =>
    intro cur cwc
    rw [sltGo_cons]
    have hflush : ∀ z : List (List Char),
        (((if cur.isEmpty then ([] : List (List Char)) else [strip cur]) ++ z).map
            dws).flatten = dws cur ++ (z.map dws).flatten := by
      intro z
      by_cases hce : cur.isEmpty
      · rw [if_pos hce, List.isEmpty_iff.mp hce]
        simp [dws]
      · rw [if_neg hce]
        simp [dws_strip]
    by_cases h1 : (strip a).isEmpty
    · rw [if_pos h1]
      have ha : dws a = [] := by
        rw [← dws_strip, List.isEmpty_iff.mp h1]
        rfl
      rw [ih cur cwc]
      simp [ha]
    · rw [if_neg h1]
      by_cases h2 : mw < wc (strip a)
      · rw [if_pos h2]
        rw [hflush (strip a :: sltGo mw rest [] 0)]
        rw [List.map_cons, List.flatten_cons, ih [] 0, dws_strip]
        simp [dws]
      · rw [if_neg h2]
        by_cases h3 : mw < cwc + wc (strip a)
        · rw [if_pos h3]
          rw [hflush (sltGo mw rest (strip a) (wc (strip a)))]
          rw [ih (strip a) (wc (strip a)), dws_strip]
          simp
        · rw [if_neg h3]
          rw [ih _ (cwc + wc (strip a))]
          by_cases hce : cur.isEmpty
          · rw [if_pos hce, List.isEmpty_iff.mp hce, dws_strip]
            simp [dws]
          · rw [if_neg hce]
            rw [dws_append, dws_cons, dws_strip]
            simp [show isWS ' ' = true from rfl]

theorem split_long_text_dws (text : List Char) (mw : Nat) :
    ((split_long_text text mw).map dws).flatten = dws text := by
  unfold split_long_text
  rw [sltGo_dws mw _ [] 0]
  unfold reSplitSent
  rw [recombine_dws (rssF text.length [] text).length _ (le_refl _),
    rssF_dws text.length text [] (le_refl _)]
  rfl

theorem bpGo_dws (mw : Nat) : ∀ (lines : List (List Char)) (cur : List Char)
    (cwc : Nat),
    ((bpGo mw lines cur cwc).map dws).flatten =
      dws cur ++ (lines.map dws).flatten := by
  intro lines
  induction lines with
  | nil =>
    intro cur cwc
    unfold bpGo
    by_cases he : (strip cur).isEmpty
    · rw [if_pos he]
      have : dws cur = [] := by
        rw [← dws_strip, List.isEmpty_iff.mp he]
        rfl
      simp [this]
    · rw [if_neg he]
      simp [dws_strip]
  | cons l rest ih =>
    intro cur cwc
    rw [bpGo_cons]
    have hflush : ∀ z : List (List Char),
        (((if cur.isEmpty then ([] : List (List Char)) else [strip cur]) ++ z).map
            dws).flatten = dws cur ++ (z.map dws).flatten := by
      intro z
      by_cases hce : cur.isEmpty
      · rw [if_pos hce, List.isEmpty_iff.mp hce]
        simp [dws]
      · rw [if_neg hce]
        simp [dws_strip]
    by_cases h1 : mw < wc l
    · rw [if_pos h1]
      rw [show (if cur.isEmpty then ([] : List (List Char)) else [strip cur]) ++
          split_long_text l mw ++ bpGo mw rest [] 0 =
          (if cur.isEmpty then ([] : List (List Char)) else [strip cur]) ++
          (split_long_text l mw ++ bpGo mw rest [] 0) by rw [List.append_assoc]]
      rw [hflush (split_long_text l mw ++ bpGo mw rest [] 0)]
      rw [List.map_append, List.flatten_append, split_long_text_dws, ih [] 0]
      simp [dws]
    · rw [if_neg h1]
      by_cases h2 : mw < cwc + wc l
      · rw [if_pos h2]
        rw [hflush (bpGo mw rest l (wc l))]
        rw [ih l (wc l)]
        simp
      · rw [if_neg h2]
        rw [ih _ (cwc + wc l)]
        by_cases hce : cur.isEmpty
        · rw [if_pos hce, List.isEmpty_iff.mp hce]
          simp [dws]
        · rw [if_neg hce]
          rw [dws_append, dws_cons]
          simp [show isWS '\n' = true from rfl]

theorem processBlock_dws (mw : Nat) (b : List Char) :
    ((processBlock mw b).map dws).flatten = dws b := by
  unfold processBlock
  by_cases h1 : (strip b).isEmpty
  · rw [if_pos h1]
    rw [← dws_strip b, List.isEmpty_iff.mp h1]
    rfl
  · rw [if_neg h1]
    by_cases h2 : wc (strip b) ≤ mw
    · rw [if_pos h2]
      simp [dws_strip]
    · rw [if_neg h2]
      by_cases h3 : (splitLines (strip b)).any (fun l => isBulletLine (strip l))
      · rw [if_pos h3]
        rw [bpGo_dws mw _ [] 0, dws_splitLines, dws_strip]
        rfl
      · rw [if_neg h3]
        rw [split_long_text_dws, dws_strip]

theorem relocateSegment_dws (s : List Char) :
    ((relocateSegment s).map dws).flatten = dws s := by
  unfold relocateSegment
  cases hm : findMarkerEnd s with
  | none => simp
  | some e =>
    dsimp only
    have hparts : ∀ u : List Char,
        (((if (strip u).isEmpty then ([] : List (List Char)) else [strip u])).map
            dws).flatten = dws u := by
      intro u
      by_cases he : (strip u).isEmpty
      · rw [if_pos he]
        rw [← dws_strip u, List.isEmpty_iff.mp he]
        rfl
      · rw [if_neg he]
        simp [dws_strip]
    rw [List.map_append, List.flatten_append, hparts (s.take e), hparts (s.drop e)]
    rw [← dws_append, List.take_append_drop]

theorem content_foldr (f : List Char → List (List Char))
    (hf : ∀ b, ((f b).map dws).flatten = dws b) :
    ∀ l : List (List Char),
      ((l.foldr (fun b acc => f b ++ acc) []).map dws).flatten =
        (l.map dws).flatten := by
  intro l
  induction l with
  | nil => rfl
  | cons a t ih =>
    rw [List.foldr_cons, List.map_append, List.flatten_append, hf a, ih]
    rfl

/-- Claim C1 (amended): concatenating, in order, all segments returned by
`split_markdown_for_video_with_image_split` yields exactly the input's
non-whitespace character stream: no non-whitespace content is lost,
duplicated, or reordered, for every input and budget.  (Whitespace-normalised
equality fails in general — see `C1_counterexample` — because segment
boundaries move whitespace.) -/
theorem C1_theorem : ∀ (text : List Char) (mw : Nat),
    dws (List.flatten (split_markdown_for_video_with_image_split text mw)) =
      dws text := by
  intro text mw
  rw [dws_flatten]
  unfold split_markdown_for_video_with_image_split
  rw [content_foldr relocateSegment relocateSegment_dws,
    content_foldr (processBlock mw) (processBlock_dws mw),
    gbGo_dws _ [], dws_splitLines, dws_strip]
  rfl
